import Mathlib

/-!
Verification of the HWP text-extraction pipeline
(`server/services/origin/hwp_extractor.py`).

The development shallowly embeds the three components of the core:

* `smart_decode` — the heuristic byte-to-text decoder.  Byte buffers are
  `List Nat`; the external codec library is a parameter (`Decoders`) since
  the Python source delegates actual decoding to `bytes.decode`.
* `normalize_text` — the text sanitizer, embedded line by line from the
  source.  Python's Unicode classification functions `str.isalnum` and
  `unicodedata.category` are parameters (`alnum`, `catLN`); theorems about
  `normalize_text` hold for every choice of these parameters.  The other
  classifiers used by the source (`str.isspace`, the regex class `\s`,
  `str.isprintable`, `str.isalpha`) are given concrete definitions below.
* the strategy orchestrator `extract_text` with its strategies `try_hwpx`,
  `extract_with_pyhwp` and `extract_with_hwp_extract`.  External
  collaborators (file reads, the zip reader, the pyhwp transforms, the
  hwp_extract stream enumerator) are fields of an environment `Env`;
  Python exceptions are modelled by the `Except PyExc` monad.

Strings are modelled as `List Char`, bytes as `List Nat`, and the float
constants 0.2, 0.9, 1.2 of the source as the exact rationals 1/5, 9/10,
6/5 (scores are `ℚ`).
-/

/-- `str.isspace` / the regex class `\s` of Python for `str` patterns:
the Unicode whitespace code points. -/
def pyIsSpace (c : Char) : Bool :=
  (0x09 ≤ c.toNat && c.toNat ≤ 0x0d) || c.toNat = 0x20 ||
  (0x1c ≤ c.toNat && c.toNat ≤ 0x1f) || c.toNat = 0x85 ||
  c.toNat = 0xa0 || c.toNat = 0x1680 || (0x2000 ≤ c.toNat && c.toNat ≤ 0x200a) ||
  c.toNat = 0x2028 || c.toNat = 0x2029 || c.toNat = 0x202f || c.toNat = 0x205f ||
  c.toNat = 0x3000

/-- The Hangul-syllable block U+AC00..U+D7A3 (the source's comparison
`"가" <= ch <= "힣"` and the regex range `가-힣`). -/
def isHangulSyl (c : Char) : Bool :=
  0xAC00 ≤ c.toNat && c.toNat ≤ 0xD7A3

/-- ASCII digit 0-9. -/
def isAsciiDigit (c : Char) : Bool :=
  0x30 ≤ c.toNat && c.toNat ≤ 0x39

/-- ASCII letter A-Z or a-z (the regex class `[A-Za-z]`). -/
def isLatinLetter (c : Char) : Bool :=
  (0x41 ≤ c.toNat && c.toNat ≤ 0x5a) || (0x61 ≤ c.toNat && c.toNat ≤ 0x7a)

/-- The Hangul jamo blocks of the source's allow list. -/
def isHangulJamo (c : Char) : Bool :=
  (0x1100 ≤ c.toNat && c.toNat ≤ 0x11ff) || (0x3130 ≤ c.toNat && c.toNat ≤ 0x318f)

/-- The CJK unified ideograph blocks of the source's allow list. -/
def isCjkIdeograph (c : Char) : Bool :=
  (0x4e00 ≤ c.toNat && c.toNat ≤ 0x9fff) || (0x3400 ≤ c.toNat && c.toNat ≤ 0x4dbf)

/-- `str.isprintable`, modelled over the code-point blocks this program
manipulates (printable ASCII, Hangul, CJK, and the punctuation variants of
the source's allow list). -/
def pyIsPrintable (c : Char) : Bool :=
  (0x20 ≤ c.toNat && c.toNat ≤ 0x7e) || isHangulSyl c || isHangulJamo c ||
  isCjkIdeograph c || c.toNat = 0x2013 || c.toNat = 0x2014 || c.toNat = 0x2022 ||
  c.toNat = 0x2026

/-- `str.isalpha`, modelled over the code-point blocks this program
manipulates (ASCII letters, Hangul, CJK ideographs). -/
def pyIsAlpha (c : Char) : Bool :=
  isLatinLetter c || isHangulSyl c || isHangulJamo c || isCjkIdeograph c

/-- `str.isalnum`, modelled over the code-point blocks this program
manipulates. -/
def pyIsAlnum (c : Char) : Bool :=
  pyIsAlpha c || isAsciiDigit c

/-- `unicodedata.category(ch).startswith(("L", "N"))`, modelled over the
code-point blocks this program manipulates. -/
def pyCatLN (c : Char) : Bool :=
  pyIsAlnum c

/-- Membership in the punctuation set of `normalize_text`
(`set(".,!?;:'\"()[]{}<>-–—…%&/+•|#")`, braces written with escapes). -/
def punctuation (ch : Char) : Bool :=
  ch = '.' || ch = ',' || ch = '!' || ch = '?' || ch = ';' || ch = ':' ||
  ch = '\'' || ch = '"' || ch = '(' || ch = ')' || ch = '[' || ch = ']' ||
  ch = '\x7b' || ch = '\x7d' || ch = '<' || ch = '>' || ch = '-' || ch = '–' ||
  ch = '—' || ch = '…' || ch = '%' || ch = '&' || ch = '/' || ch = '+' ||
  ch = '•' || ch = '|' || ch = '#'

/-- `is_allowed_char` of `normalize_text`: whitespace, the punctuation set,
ASCII digits and letters, Hangul syllables, Hangul jamo, CJK ideographs,
CJK symbols/punctuation (U+3000..U+303F), general punctuation
(U+2010..U+205E), or a character of Unicode category Letter/Number
(the parameter `catLN`). -/
def is_allowed_char (catLN : Char → Bool) (ch : Char) : Bool :=
  pyIsSpace ch ||
  punctuation ch ||
  (0x30 ≤ ch.toNat && ch.toNat ≤ 0x39) ||
  (0x41 ≤ ch.toNat && ch.toNat ≤ 0x5a) || (0x61 ≤ ch.toNat && ch.toNat ≤ 0x7a) ||
  (0xAC00 ≤ ch.toNat && ch.toNat ≤ 0xD7A3) ||
  (0x1100 ≤ ch.toNat && ch.toNat ≤ 0x11ff) || (0x3130 ≤ ch.toNat && ch.toNat ≤ 0x318f) ||
  (0x4e00 ≤ ch.toNat && ch.toNat ≤ 0x9fff) || (0x3400 ≤ ch.toNat && ch.toNat ≤ 0x4dbf) ||
  (0x3000 ≤ ch.toNat && ch.toNat ≤ 0x303f) ||
  (0x2010 ≤ ch.toNat && ch.toNat ≤ 0x205e) ||
  catLN ch

/-- First-character class of the span regex
`[가-힣A-Za-z0-9][가-힣A-Za-z0-9\s.,!?…()\-]*`. -/
def isSpanStart (c : Char) : Bool :=
  isHangulSyl c || isLatinLetter c || isAsciiDigit c

/-- The narrow punctuation subset admitted inside a span. -/
def spanPunct (ch : Char) : Bool :=
  ch = '.' || ch = ',' || ch = '!' || ch = '?' || ch = '…' || ch = '(' ||
  ch = ')' || ch = '-'

/-- Continuation-character class of the span regex. -/
def isSpanCont (c : Char) : Bool :=
  isSpanStart c || pyIsSpace c || spanPunct c

/-- The control characters removed by `re.sub(r"[\x00-\x08\x0b\x0c\x0e-\x1f]", "", …)`. -/
def isStripCtrl (c : Char) : Bool :=
  c.toNat ≤ 0x08 || c.toNat = 0x0b || c.toNat = 0x0c ||
  (0x0e ≤ c.toNat && c.toNat ≤ 0x1f)

/-- The alphabet every final output character of `normalize_text` is drawn
from (inside a line): Hangul syllable, ASCII letter/digit, the single
space, or one of `. , ! ? … ( ) -`. -/
def narrowChar (c : Char) : Bool :=
  isSpanStart c || c = ' ' || spanPunct c

/-- `str.replace("\r\n", "\n")` — left-to-right, non-overlapping. -/
def replaceCRLF : List Char → List Char
  | [] => []
  | a :: rest =>
    if a = '\r' ∧ rest.head? = some '\n' then '\n' :: replaceCRLF rest.tail
    else a :: replaceCRLF rest
termination_by l => l.length
decreasing_by
  · simp only [List.length_cons]
    cases rest with
    | nil => simp
    | cons b t => simp [Nat.lt_succ_of_le, Nat.le_succ]
  · simp

/-- `str.replace("\r", "\n")` on the result of `replaceCRLF`. -/
def mapCR (l : List Char) : List Char :=
  l.map (fun c => if c = '\r' then '\n' else c)

theorem length_dropWhile_le (p : Char → Bool) (l : List Char) :
    (l.dropWhile p).length ≤ l.length := by
  induction l with
  | nil => simp
  | cons a l ih =>
    rw [List.dropWhile_cons]
    split
    · exact ih.trans (Nat.le_succ _)
    · simp

/-- `re.sub(r"\n{3,}", "\n\n", …)`: every maximal run of three or more
newlines becomes exactly two. -/
def collapseNl : List Char → List Char
  | [] => []
  | c :: rest =>
    if c = '\n' then
      (if 2 ≤ (rest.takeWhile (· = '\n')).length then ['\n', '\n']
       else '\n' :: rest.takeWhile (· = '\n')) ++
      collapseNl (rest.dropWhile (· = '\n'))
    else c :: collapseNl rest
termination_by l => l.length
decreasing_by
  · exact Nat.lt_succ_of_le (length_dropWhile_le _ _)
  · simp

/-- `str.split("\n")`: split on every newline, keeping empty pieces
(`"".split("\n") == [""]`). -/
def splitNl : List Char → List (List Char)
  | [] => [[]]
  | c :: rest =>
    match splitNl rest with
    | [] => [[]]
    | h :: t => if c = '\n' then [] :: h :: t else (c :: h) :: t

/-- `sep.join(pieces)` of Python. -/
def joinSep (sep : List Char) : List (List Char) → List Char
  | [] => []
  | [s] => s
  | s :: s2 :: rest => s ++ sep ++ joinSep sep (s2 :: rest)

/-- `re.sub(r"\s+", " ", …)`: every maximal whitespace run becomes one
single space. -/
def collapseWS : List Char → List Char
  | [] => []
  | c :: rest =>
    if pyIsSpace c then ' ' :: collapseWS (rest.dropWhile pyIsSpace)
    else c :: collapseWS rest
termination_by l => l.length
decreasing_by
  · exact Nat.lt_succ_of_le (length_dropWhile_le _ _)
  · simp

/-- Remove trailing whitespace (the right half of `str.strip()`). -/
def dropTrailingWS : List Char → List Char
  | [] => []
  | c :: rest =>
    let r := dropTrailingWS rest
    if r.isEmpty && pyIsSpace c then [] else c :: r

/-- `str.strip()`: remove leading and trailing whitespace. -/
def stripWS (l : List Char) : List Char :=
  dropTrailingWS (l.dropWhile pyIsSpace)

/-- Scanner: does the list contain two adjacent whitespace characters? -/
def hasAdjWS : List Char → Bool
  | [] => false
  | [_] => false
  | a :: b :: rest => (pyIsSpace a && pyIsSpace b) || hasAdjWS (b :: rest)

/-- Scanner: does the list contain two adjacent newline characters? -/
def hasNlNl : List Char → Bool
  | [] => false
  | [_] => false
  | a :: b :: rest => (a = '\n' && b = '\n') || hasNlNl (b :: rest)

/-- `re.findall(r"[가-힣A-Za-z0-9][가-힣A-Za-z0-9\s.,!?…()\-]*", …)`:
leftmost non-overlapping matches; at a start character the greedy match
takes the maximal run of continuation characters. -/
def findSpans : List Char → List (List Char)
  | [] => []
  | c :: rest =>
    if isSpanStart c then
      (c :: rest.takeWhile isSpanCont) :: findSpans (rest.dropWhile isSpanCont)
    else findSpans rest
termination_by l => l.length
decreasing_by
  · exact Nat.lt_succ_of_le (length_dropWhile_le _ _)
  · simp

/-- `max(candidate_spans, key=len)`: the first element of maximal length. -/
def maxByLen : List (List Char) → List Char
  | [] => []
  | s :: rest => rest.foldl (fun b x => if b.length < x.length then x else b) s

/-- One iteration of the per-line loop of `normalize_text` (lines 152-174
of the source): filter to the allow list, collapse whitespace, trim,
extract the longest span, apply the quality gates; `none` models
`continue`.  `hangul_chars / alnum_chars < 0.2` is modelled exactly as
`5 * hangul_chars < alnum_chars`. -/
def processLine (alnum catLN : Char → Bool) (raw_line : List Char) : Option (List Char) :=
  let filtered_line := stripWS (collapseWS (raw_line.filter (is_allowed_char catLN)))
  if filtered_line.isEmpty then none
  else
    let candidate_spans := findSpans filtered_line
    if candidate_spans.isEmpty then none
    else
      let best_span := stripWS (maxByLen candidate_spans)
      if best_span.isEmpty then none
      else
        let hangul_chars := best_span.countP isHangulSyl
        let alnum_chars := best_span.countP alnum
        if alnum_chars = 0 then none
        else if 5 * hangul_chars < alnum_chars ∧ ¬ best_span.any isLatinLetter then none
        else some best_span

/-- `normalize_text` of the source: normalize line endings, strip NUL and
the narrow control range, collapse 3+ newline runs to two, then sanitize
each line with `processLine` and join the survivors with single newlines.
Python's `str.isalnum` and the Letter/Number category test are the
parameters `alnum` and `catLN`. -/
def normalize_text (alnum catLN : Char → Bool) (raw : List Char) : List Char :=
  let cleaned := mapCR (replaceCRLF raw)
  let cleaned := cleaned.filter (fun c => !(c = '\x00' : Bool))
  let cleaned := cleaned.filter (fun c => !(isStripCtrl c))
  let cleaned := collapseNl cleaned
  joinSep ['\n'] ((splitNl cleaned).filterMap (processLine alnum catLN))

/-- The sanitized lines of `normalize_text` (the list `sanitized_lines`
right before the final join). -/
def sanitizedLines (alnum catLN : Char → Bool) (raw : List Char) : List (List Char) :=
  (splitNl (collapseNl (((mapCR (replaceCRLF raw)).filter
      (fun c => !(c = '\x00' : Bool))).filter
      (fun c => !(isStripCtrl c))))).filterMap (processLine alnum catLN)

/-- The candidate encodings tried by `smart_decode`. -/
inductive Encoding where
  | utf16le | utf16be | utf16 | cp949 | euckr | utf8
deriving DecidableEq

/-- The external codec library (`bytes.decode`).  `strict` may fail
(`None` models a raised `UnicodeDecodeError`); `replace` substitutes
invalid sequences and always returns a string. -/
structure Decoders where
  strict : Encoding → List Nat → Option (List Char)
  replace : Encoding → List Nat → List Char

/-- `_printable_ratio`: fraction of characters printable or newline/tab. -/
def _printable_ratio (candidate : List Char) : ℚ :=
  if candidate.isEmpty then 0
  else ((candidate.countP (fun ch => pyIsPrintable ch || ch = '\n' || ch = '\t') : ℕ) : ℚ) /
    ((max 1 candidate.length : ℕ) : ℚ)

/-- `_hangul_ratio`: Hangul-syllable characters over alphabetic characters. -/
def _hangul_ratio (candidate : List Char) : ℚ :=
  if candidate.isEmpty then 0
  else ((candidate.countP isHangulSyl : ℕ) : ℚ) /
    ((max 1 (candidate.countP pyIsAlpha) : ℕ) : ℚ)

/-- `score_text` of `smart_decode`. -/
def score_text (txt : List Char) : ℚ :=
  _printable_ratio txt + (2 / 5) * _hangul_ratio txt

/-- The candidate loop of `smart_decode` (one pass).  Input: the decode
results in order (`none` = decode raised, skipped); carried state: the
best text/score so far.  Output: final text, final score, whether the
loop returned early (score above 1.2), and the log of successfully
decoded candidate texts attempted. -/
def candLoop : List (Option (List Char)) → List Char → ℚ →
    (List Char × ℚ × Bool × List (List Char))
  | [], bt, bs => (bt, bs, false, [])
  | none :: rest, bt, bs => candLoop rest bt bs
  | some t :: rest, bt, bs =>
    let sc := score_text t
    let bt2 := if bs < sc then t else bt
    let bs2 := if bs < sc then sc else bs
    if 6 / 5 < sc then (t, sc, true, [t])
    else
      let r := candLoop rest bt2 bs2
      (r.1, r.2.1, r.2.2.1, t :: r.2.2.2)

/-- `raw[::2]`: every other byte. -/
def everyOther : List Nat → List Nat
  | [] => []
  | [a] => [a]
  | a :: _ :: rest => a :: everyOther rest

/-- The wide-byte pre-check of `smart_decode`: among the first 4096 bytes,
do zero bytes exceed a fifth (`count > len * 0.2`)? -/
def looksUtf16 (raw : List Nat) : Bool :=
  let sample := raw.take 4096
  sample.length < 5 * sample.countP (· = 0)

/-- The candidate decode attempts of the first pass of `smart_decode`
(`utf-16-le` strict, `utf-16-be` strict and `utf-16` lenient when the
wide-byte pre-check fired, then the three lenient 8-bit/multi-byte
candidates). -/
def smart_decode_cands1 (d : Decoders) (raw : List Nat) : List (Option (List Char)) :=
  (if looksUtf16 raw then
    [d.strict .utf16le raw, d.strict .utf16be raw, some (d.replace .utf16 raw)]
   else []) ++
  [some (d.replace .cp949 raw), some (d.replace .euckr raw), some (d.replace .utf8 raw)]

/-- The first candidate loop of `smart_decode`, started from
`best_txt = ""`, `best_score = -1.0`. -/
def smart_decode_pass1 (d : Decoders) (raw : List Nat) :
    List Char × ℚ × Bool × List (List Char) :=
  candLoop (smart_decode_cands1 d raw) [] (-1)

/-- The candidate decode attempts of the narrowed-buffer fallback pass
(`raw[::2]`, lenient `cp949`/`euc-kr`/`utf-8`). -/
def smart_decode_cands2 (d : Decoders) (raw : List Nat) : List (Option (List Char)) :=
  [some (d.replace .cp949 (everyOther raw)), some (d.replace .euckr (everyOther raw)),
   some (d.replace .utf8 (everyOther raw))]

/-- The narrowed-buffer candidate loop, continuing from the first pass's
best text and score. -/
def smart_decode_pass2 (d : Decoders) (raw : List Nat) :
    List Char × ℚ × Bool × List (List Char) :=
  candLoop (smart_decode_cands2 d raw) (smart_decode_pass1 d raw).1
    (smart_decode_pass1 d raw).2.1

/-- `smart_decode` together with the log of all successfully decoded
candidates it attempted (first pass, plus the narrowed-buffer pass when
it runs).  The result component mirrors the source exactly; the log is
instrumentation for the best-of property. -/
def smart_decode_full (d : Decoders) (raw : List Nat) :
    List Char × List (List Char) :=
  if (smart_decode_pass1 d raw).2.2.1 then
    ((smart_decode_pass1 d raw).1, (smart_decode_pass1 d raw).2.2.2)
  else if looksUtf16 raw ∧ (smart_decode_pass1 d raw).2.1 < 9 / 10 ∧ 4 ≤ raw.length then
    ((smart_decode_pass2 d raw).1,
     (smart_decode_pass1 d raw).2.2.2 ++ (smart_decode_pass2 d raw).2.2.2)
  else ((smart_decode_pass1 d raw).1, (smart_decode_pass1 d raw).2.2.2)

/-- `smart_decode` of the source. -/
def smart_decode (d : Decoders) (raw : List Nat) : List Char :=
  (smart_decode_full d raw).1

/-- The successfully decoded candidate texts attempted during
`smart_decode d raw`. -/
def smart_decode_attempts (d : Decoders) (raw : List Nat) : List (List Char) :=
  (smart_decode_full d raw).2

/-- Python exceptions that can cross the boundaries modelled here. -/
inductive PyExc where
  | runtimeError (msg : List Char)
  | noPasswordError (msg : List Char)
  | hwpExtractorError (msg : List Char)
  | valueError (msg : List Char)
  | otherError (msg : List Char)
deriving DecidableEq

/-- `str(err)` of an exception: its message. -/
def excMsg : PyExc → List Char
  | .runtimeError m => m
  | .noPasswordError m => m
  | .hwpExtractorError m => m
  | .valueError m => m
  | .otherError m => m

/-- A named byte stream yielded by `HWPExtractor.extract_files()`. -/
structure HStream where
  name : List Char
  data : List Nat

/-- The external collaborators of the orchestrator, one field per external
call site of the source.  `Except PyExc` models a call that can raise. -/
structure Env where
  /-- the codec library used by `smart_decode` and the zip reader -/
  dec : Decoders
  /-- `str.isalnum` (a Unicode-table lookup) -/
  alnum : Char → Bool
  /-- category Letter/Number (a Unicode-table lookup) -/
  catLN : Char → Bool
  /-- `open(path, "rb"); handle.read(4)` in `try_hwpx` -/
  sigRead : Except PyExc (List Nat)
  /-- `zipfile.ZipFile(path)`: entry names with their contents -/
  zipEntries : Except PyExc (List (List Char × List Nat))
  /-- `HAS_PYHWP` -/
  hasPyhwp : Bool
  /-- `PYHWP_IMPORT_ERROR` -/
  pyhwpImportError : Option PyExc
  /-- `run_transform(TextTransform().transform_hwp5_to_text)` -/
  textTransform : Except PyExc (List Nat)
  /-- `run_transform(HTMLTransform().transform_hwp5_to_html)` -/
  htmlTransform : Except PyExc (List Nat)
  /-- `lxml_html.fromstring(…).text_content()` -/
  htmlTextContent : List Char → Except PyExc (List Char)
  /-- `open(path, "rb"); handle.read()` in `extract_with_hwp_extract` -/
  readData : Except PyExc (List Nat)
  /-- `HWPExtractor(data=data, raise_pw_error=False).extract_files()` -/
  extractFiles : Except PyExc (List HStream)

/-- `str.lower()` restricted to ASCII (the entry names handled here). -/
def asciiLower (l : List Char) : List Char :=
  l.map fun c =>
    if 0x41 ≤ c.toNat ∧ c.toNat ≤ 0x5a then Char.ofNat (c.toNat + 0x20) else c

/-- Lexicographic (code-point) order on strings, Python's `sorted` key. -/
def lexLe : List Char → List Char → Bool
  | [], _ => true
  | _ :: _, [] => false
  | a :: as, b :: bs => if a = b then lexLe as bs else decide (a < b)

/-- Insert into a lexicographically sorted list (stable). -/
def insertSorted (x : List Char) : List (List Char) → List (List Char)
  | [] => [x]
  | y :: ys => if lexLe x y then x :: y :: ys else y :: insertSorted x ys

/-- `sorted(names)`. -/
def sortNames (l : List (List Char)) : List (List Char) :=
  l.foldr insertSorted []

/-- `re.sub(r"<[^>]+>", " ", …)`: replace every markup tag (a `<`, one or
more non-`>` characters, then `>`) by a single space.  A tag match exists
at a `<` exactly when the run of non-`>` characters after it is non-empty
and is followed by a `>` (i.e. is shorter than the whole rest). -/
def stripTags : List Char → List Char
  | [] => []
  | c :: rest =>
    if c = '<' then
      let body := rest.takeWhile (· ≠ '>')
      if body.length < rest.length ∧ ¬ body.isEmpty then
        ' ' :: stripTags (rest.drop (body.length + 1))
      else '<' :: stripTags rest
    else c :: stripTags rest
termination_by l => l.length
decreasing_by
  · simp only [List.length_cons, List.length_drop]
    omega
  · simp
  · simp

/-- The first four bytes of a zip file (`b"PK\x03\x04"`). -/
def zipSignature : List Nat := [0x50, 0x4b, 0x03, 0x04]

/-- The body of `try_hwpx` (everything inside its `try`).  `none` models
the silent inapplicability returns; an `Except.error` models any raised
exception, which `try_hwpx` itself converts to `None`. -/
def try_hwpx_body (env : Env) : Except PyExc (Option (List Char)) :=
  match env.sigRead with
  | .error e => .error e
  | .ok signature =>
    if signature ≠ zipSignature then .ok none
    else
      match env.zipEntries with
      | .error e => .error e
      | .ok entries =>
        let section_entries := entries.filter fun en =>
          "contents/section".toList.isPrefixOf (asciiLower en.1) &&
          ".xml".toList.isSuffixOf (asciiLower en.1)
        if section_entries.isEmpty then .ok none
        else
          let ordered := (sortNames (section_entries.map (·.1))).map fun nm =>
            ((section_entries.find? (fun en => en.1 = nm)).map (·.2)).getD []
          let texts := ordered.map fun xml_bytes =>
            match env.dec.strict .utf8 xml_bytes with
            | some xml_text => stripTags xml_text
            | none => stripTags (env.dec.replace .utf8 xml_bytes)
          .ok (some (normalize_text env.alnum env.catLN (joinSep ['\n'] texts)))

/-- `try_hwpx`: the container-text strategy; every exception inside the
body is caught and turned into `None`. -/
def try_hwpx (env : Env) : Option (List Char) :=
  match try_hwpx_body env with
  | .ok r => r
  | .error _ => none

/-- `bytes.strip()`: strip ASCII whitespace bytes from both ends; here we
only need its emptiness test (`if not raw.strip()`), i.e. whether the
buffer is all ASCII whitespace. -/
def bytesAllWS (l : List Nat) : Bool :=
  l.all fun n => n = 0x20 || n = 0x09 || n = 0x0a || n = 0x0d || n = 0x0b || n = 0x0c

/-- The body of `extract_with_pyhwp`'s `try` block.  The `Option` in the
result distinguishes the two early `return None, ValueError(…)` paths. -/
def pyhwp_body (env : Env) : Except PyExc (Option (List Char) × Option PyExc) :=
  match env.textTransform with
  | .error e => .error e
  | .ok raw =>
    let textRes : Except PyExc (Option (List Char)) :=
      if bytesAllWS raw then
        match env.htmlTransform with
        | .error e => .error e
        | .ok raw2 =>
          if bytesAllWS raw2 then .ok none
          else
            match env.htmlTextContent (env.dec.replace .utf8 raw2) with
            | .error e => .error e
            | .ok t => .ok (some t)
      else .ok (some (env.dec.replace .utf8 raw))
    match textRes with
    | .error e => .error e
    | .ok none => .ok (none, some (.valueError "pyhwp produced no output".toList))
    | .ok (some text) =>
      let normalized := normalize_text env.alnum env.catLN text
      if normalized.isEmpty then
        .ok (none, some (.valueError "pyhwp output was empty after normalization".toList))
      else .ok (some normalized, none)

/-- `extract_with_pyhwp`: the structured-library strategy; returns
`(text?, error?)`, catching every exception of its body. -/
def extract_with_pyhwp (env : Env) : Option (List Char) × Option PyExc :=
  if ¬ env.hasPyhwp then (none, env.pyhwpImportError)
  else
    match pyhwp_body env with
    | .ok r => r
    | .error e => (none, some e)

/-- The fixed terminal message of `extract_with_hwp_extract`. -/
def noContentMsg : List Char := "No textual content found in HWP file.".toList

/-- The fragment collection loop of `extract_with_hwp_extract`: keep the
body-content streams whose smart-decoded, trimmed, normalized text is
non-empty. -/
def hwpFragments (env : Env) (streams : List HStream) : List (List Char) :=
  streams.filterMap fun stream =>
    let name := asciiLower stream.name
    if ¬ ("bodytext/".toList.isPrefixOf name ∨ "viewtext/".toList.isPrefixOf name) then none
    else
      let decoded := stripWS (smart_decode env.dec stream.data)
      if decoded.isEmpty then none
      else
        let normalized := normalize_text env.alnum env.catLN decoded
        if normalized.isEmpty then none else some normalized

/-- `extract_with_hwp_extract`: the raw-stream strategy.  It raises
(`Except.error`) when the file read or the stream enumeration raises, or
— with the fixed message — when no fragment survives. -/
def extract_with_hwp_extract (env : Env) : Except PyExc (List Char) :=
  match env.readData with
  | .error e => .error e
  | .ok _ =>
    match env.extractFiles with
    | .error e => .error e
    | .ok streams =>
      let text_fragments := hwpFragments env streams
      if text_fragments.isEmpty then .error (.runtimeError noContentMsg)
      else .ok (joinSep ['\n', '\n'] text_fragments)

/-- Python truthiness of an `Optional[str]`. -/
def truthyOpt : Option (List Char) → Bool
  | some t => ¬ t.isEmpty
  | none => false

/-- The `pyhwp_error` local of `extract_text` at the fallback point:
`None` unless the structured-library strategy ran and recorded an error. -/
def pyhwp_err (env : Env) : Option PyExc :=
  if env.hasPyhwp then (extract_with_pyhwp env).2 else none

/-- The diagnostic suffix `f" (pyhwp failed: {pyhwp_error})"` appended to
a terminal failure when the structured-library strategy had failed. -/
def pySuffix (env : Env) : List Char :=
  match pyhwp_err env with
  | some e => " (pyhwp failed: ".toList ++ excMsg e ++ ")".toList
  | none => []

/-- The fallback tail of `extract_text` (its `try` / `except` around
`extract_with_hwp_extract`), given the recorded `pyhwp_error`. -/
def extract_text_fallback (env : Env) (pyhwpErr : Option PyExc) :
    Except PyExc (List Char × List Char) :=
  match extract_with_hwp_extract env with
  | .ok fallback_text =>
    let label :=
      if ¬ env.hasPyhwp ∧ env.pyhwpImportError.isSome then
        "smart_decode (pyhwp missing)".toList
      else "smart_decode".toList
    .ok (fallback_text, label)
  | .error err =>
    let suffix :=
      match pyhwpErr with
      | some e => " (pyhwp failed: ".toList ++ excMsg e ++ ")".toList
      | none => []
    .error (.runtimeError (excMsg err ++ suffix))

/-- `extract_text`, instrumented with the list of strategies actually
invoked (in order).  The first component mirrors the source exactly. -/
def extract_text_core (env : Env) :
    Except PyExc (List Char × List Char) × List (List Char) :=
  let hwpx_text := try_hwpx env
  if truthyOpt hwpx_text then
    (.ok (hwpx_text.getD [], "hwpx".toList), ["try_hwpx".toList])
  else if env.hasPyhwp then
    let pyres := extract_with_pyhwp env
    if truthyOpt pyres.1 then
      (.ok (pyres.1.getD [], "pyhwp".toList),
       ["try_hwpx".toList, "pyhwp".toList])
    else
      (extract_text_fallback env pyres.2,
       ["try_hwpx".toList, "pyhwp".toList, "hwp_extract".toList])
  else
    (extract_text_fallback env none, ["try_hwpx".toList, "hwp_extract".toList])

/-- `extract_text` of the source. -/
def extract_text (env : Env) : Except PyExc (List Char × List Char) :=
  (extract_text_core env).1

theorem spanPunct_cases {c : Char} (h : spanPunct c = true) :
    c = '.' ∨ c = ',' ∨ c = '!' ∨ c = '?' ∨ c = '…' ∨ c = '(' ∨ c = ')' ∨ c = '-' := by
  simp only [spanPunct, Bool.or_eq_true, decide_eq_true_eq] at h
  tauto

theorem spanPunct_not_space {c : Char} (h : spanPunct c = true) : pyIsSpace c = false := by
  rcases spanPunct_cases h with h1 | h1 | h1 | h1 | h1 | h1 | h1 | h1 <;> subst h1 <;> decide

theorem spanPunct_punctuation {c : Char} (h : spanPunct c = true) : punctuation c = true := by
  rcases spanPunct_cases h with h1 | h1 | h1 | h1 | h1 | h1 | h1 | h1 <;> subst h1 <;> decide

theorem isSpanStart_not_space {c : Char} (h : isSpanStart c = true) : pyIsSpace c = false := by
  simp only [isSpanStart, isHangulSyl, isLatinLetter, isAsciiDigit, Bool.or_eq_true,
    Bool.and_eq_true, decide_eq_true_eq] at h
  simp only [pyIsSpace, Bool.or_eq_false_iff, Bool.and_eq_false_iff,
    decide_eq_false_iff_not, Bool.or_eq_true, Bool.and_eq_true, decide_eq_true_eq]
  omega

theorem isSpanStart_narrow {c : Char} (h : isSpanStart c = true) : narrowChar c = true := by
  simp [narrowChar, h]

theorem narrowChar_space {c : Char} (h : narrowChar c = true) (hs : pyIsSpace c = true) :
    c = ' ' := by
  simp only [narrowChar, Bool.or_eq_true, decide_eq_true_eq] at h
  rcases h with (h1 | h1) | h1
  · rw [isSpanStart_not_space h1] at hs; cases hs
  · exact h1
  · rw [spanPunct_not_space h1] at hs; cases hs

theorem narrowChar_cont {c : Char} (h : narrowChar c = true) : isSpanCont c = true := by
  simp only [narrowChar, Bool.or_eq_true, decide_eq_true_eq] at h
  rcases h with (h1 | h1) | h1
  · simp [isSpanCont, h1]
  · subst h1; decide
  · simp [isSpanCont, h1]

theorem narrowChar_allowed {c : Char} (catLN : Char → Bool) (h : narrowChar c = true) :
    is_allowed_char catLN c = true := by
  have key : pyIsSpace c = true ∨ punctuation c = true ∨ isHangulSyl c = true ∨
      isLatinLetter c = true ∨ isAsciiDigit c = true := by
    simp only [narrowChar, Bool.or_eq_true, decide_eq_true_eq] at h
    rcases h with (h1 | h1) | h1
    · simp only [isSpanStart, Bool.or_eq_true] at h1
      tauto
    · subst h1
      left; decide
    · right; left
      exact spanPunct_punctuation h1
  rcases key with h2 | h2 | h2 | h2 | h2
  · simp only [is_allowed_char, h2, Bool.true_or]
  · simp only [is_allowed_char, h2, Bool.true_or, Bool.or_true]
  · simp only [isHangulSyl] at h2
    simp only [is_allowed_char, h2, Bool.true_or, Bool.or_true]
  · simp only [isLatinLetter, Bool.or_eq_true] at h2
    rcases h2 with h3 | h3 <;>
      simp only [is_allowed_char, h3, Bool.true_or, Bool.or_true]
  · simp only [isAsciiDigit] at h2
    simp only [is_allowed_char, h2, Bool.true_or, Bool.or_true]

theorem narrowChar_facts {c : Char} (h : narrowChar c = true) :
    c ≠ '\n' ∧ c ≠ '\r' ∧ c ≠ '\x00' ∧ isStripCtrl c = false := by
  simp only [narrowChar, Bool.or_eq_true, decide_eq_true_eq] at h
  rcases h with (h1 | h1) | h1
  · simp only [isSpanStart, isHangulSyl, isLatinLetter, isAsciiDigit, Bool.or_eq_true,
      Bool.and_eq_true, decide_eq_true_eq] at h1
    refine ⟨?_, ?_, ?_, ?_⟩
    · intro hc; subst hc; simp at h1
    · intro hc; subst hc; simp at h1
    · intro hc; subst hc; simp at h1
    · simp only [isStripCtrl, Bool.or_eq_false_iff, Bool.and_eq_false_iff,
        decide_eq_false_iff_not]
      omega
  · subst h1; decide
  · rcases spanPunct_cases h1 with h2 | h2 | h2 | h2 | h2 | h2 | h2 | h2 <;> subst h2 <;> decide

set_option maxHeartbeats 2000000 in
theorem collapseWS_nil : collapseWS [] = [] := by
  rw [collapseWS]

set_option maxHeartbeats 2000000 in
theorem collapseWS_cons (c : Char) (rest : List Char) :
    collapseWS (c :: rest) =
      if pyIsSpace c then ' ' :: collapseWS (rest.dropWhile pyIsSpace)
      else c :: collapseWS rest := by
  rw [collapseWS]

set_option maxHeartbeats 2000000 in
theorem collapseNl_nil : collapseNl [] = [] := by
  rw [collapseNl]

set_option maxHeartbeats 2000000 in
theorem collapseNl_cons (c : Char) (rest : List Char) :
    collapseNl (c :: rest) =
      if c = '\n' then
        (if 2 ≤ (rest.takeWhile (· = '\n')).length then ['\n', '\n']
         else '\n' :: rest.takeWhile (· = '\n')) ++
        collapseNl (rest.dropWhile (· = '\n'))
      else c :: collapseNl rest := by
  rw [collapseNl]

set_option maxHeartbeats 2000000 in
theorem findSpans_nil : findSpans [] = [] := by
  rw [findSpans]

set_option maxHeartbeats 2000000 in
theorem findSpans_cons (c : Char) (rest : List Char) :
    findSpans (c :: rest) =
      if isSpanStart c then
        (c :: rest.takeWhile isSpanCont) :: findSpans (rest.dropWhile isSpanCont)
      else findSpans rest := by
  rw [findSpans]

set_option maxHeartbeats 2000000 in
theorem replaceCRLF_nil : replaceCRLF [] = [] := by
  rw [replaceCRLF]

set_option maxHeartbeats 2000000 in
theorem replaceCRLF_cons (a : Char) (rest : List Char) :
    replaceCRLF (a :: rest) =
      if a = '\r' ∧ rest.head? = some '\n' then '\n' :: replaceCRLF rest.tail
      else a :: replaceCRLF rest := by
  rw [replaceCRLF]

set_option maxHeartbeats 2000000 in
theorem stripTags_nil : stripTags [] = [] := by
  rw [stripTags]

set_option maxHeartbeats 2000000 in
theorem stripTags_cons (c : Char) (rest : List Char) :
    stripTags (c :: rest) =
      if c = '<' then
        if (rest.takeWhile (· ≠ '>')).length < rest.length ∧
            ¬ (rest.takeWhile (· ≠ '>')).isEmpty then
          ' ' :: stripTags (rest.drop ((rest.takeWhile (· ≠ '>')).length + 1))
        else '<' :: stripTags rest
      else c :: stripTags rest := by
  rw [stripTags]

theorem hasAdjWS_tail {a : Char} {l : List Char} (h : hasAdjWS (a :: l) = false) :
    hasAdjWS l = false := by
  cases l with
  | nil => rfl
  | cons b t =>
    rw [hasAdjWS] at h
    exact (Bool.or_eq_false_iff.mp h).2

theorem hasAdjWS_pair {a b : Char} {l : List Char} (h : hasAdjWS (a :: b :: l) = false) :
    pyIsSpace a = false ∨ pyIsSpace b = false := by
  rw [hasAdjWS] at h
  have h1 := (Bool.or_eq_false_iff.mp h).1
  rcases Bool.and_eq_false_iff.mp h1 with h2 | h2
  · exact Or.inl h2
  · exact Or.inr h2

theorem hasAdjWS_cons {a : Char} {l : List Char} (ha : pyIsSpace a = false)
    (h : hasAdjWS l = false) : hasAdjWS (a :: l) = false := by
  cases l with
  | nil => rfl
  | cons b t =>
    rw [hasAdjWS, h, ha]
    rfl

theorem hasAdjWS_cons_of_head {a : Char} {l : List Char} (h : hasAdjWS l = false)
    (hh : ∀ b, l.head? = some b → pyIsSpace a = false ∨ pyIsSpace b = false) :
    hasAdjWS (a :: l) = false := by
  cases l with
  | nil => rfl
  | cons b t =>
    rw [hasAdjWS, h]
    rcases hh b rfl with h1 | h1 <;> simp [h1]

theorem hasAdjWS_dropWhile {p : Char → Bool} {l : List Char} (h : hasAdjWS l = false) :
    hasAdjWS (l.dropWhile p) = false := by
  induction l with
  | nil => simpa using h
  | cons a t ih =>
    rw [List.dropWhile_cons]
    split
    · exact ih (hasAdjWS_tail h)
    · exact h

theorem hasAdjWS_takeWhile {p : Char → Bool} {l : List Char} (h : hasAdjWS l = false) :
    hasAdjWS (l.takeWhile p) = false := by
  induction l with
  | nil => simpa using h
  | cons a t ih =>
    rw [List.takeWhile_cons]
    split
    · refine hasAdjWS_cons_of_head (ih (hasAdjWS_tail h)) ?_
      intro b hb
      cases t with
      | nil => simp [List.takeWhile] at hb
      | cons c t2 =>
        rw [List.takeWhile_cons] at hb
        by_cases hc : p c = true
        · rw [if_pos hc] at hb
          simp only [List.head?_cons, Option.some.injEq] at hb
          subst hb
          exact hasAdjWS_pair h
        · simp [hc] at hb
    · rfl

theorem hasAdjWS_cons_takeWhile {p : Char → Bool} {a : Char} {l : List Char}
    (h : hasAdjWS (a :: l) = false) : hasAdjWS (a :: l.takeWhile p) = false := by
  refine hasAdjWS_cons_of_head (hasAdjWS_takeWhile (hasAdjWS_tail h)) ?_
  intro b hb
  cases l with
  | nil => simp [List.takeWhile] at hb
  | cons c t =>
    rw [List.takeWhile_cons] at hb
    by_cases hc : p c = true
    · rw [if_pos hc] at hb
      simp only [List.head?_cons, Option.some.injEq] at hb
      subst hb
      exact hasAdjWS_pair h
    · simp [hc] at hb

theorem collapseWS_mem_space {l : List Char} {c : Char} (h : c ∈ collapseWS l)
    (hs : pyIsSpace c = true) : c = ' ' := by
  induction l using collapseWS.induct with
  | case1 => rw [collapseWS_nil] at h; simp at h
  | case2 a rest ha ih =>
    rw [collapseWS_cons, if_pos ha] at h
    rcases List.mem_cons.mp h with h1 | h1
    · exact h1
    · exact ih h1
  | case3 a rest ha ih =>
    rw [collapseWS_cons, if_neg ha] at h
    rcases List.mem_cons.mp h with h1 | h1
    · subst h1; simp_all
    · exact ih h1

theorem collapseWS_head_of_not_space {a : Char} {l : List Char} (ha : pyIsSpace a = false) :
    collapseWS (a :: l) = a :: collapseWS l := by
  rw [collapseWS_cons]
  simp [ha]

theorem collapseWS_head? {l : List Char} {b : Char} (hb : (collapseWS l).head? = some b) :
    pyIsSpace b = false ∨ b = ' ' := by
  induction l using collapseWS.induct with
  | case1 => rw [collapseWS_nil] at hb; simp at hb
  | case2 a rest ha ih =>
    rw [collapseWS_cons, if_pos ha] at hb
    simp only [List.head?_cons, Option.some.injEq] at hb
    exact Or.inr hb.symm
  | case3 a rest ha ih =>
    rw [collapseWS_cons, if_neg ha] at hb
    simp only [List.head?_cons, Option.some.injEq] at hb
    subst hb
    exact Or.inl (by simpa using ha)

theorem collapseWS_noAdj (l : List Char) : hasAdjWS (collapseWS l) = false := by
  induction l using collapseWS.induct with
  | case1 => rw [collapseWS_nil]; rfl
  | case2 a rest ha ih =>
    rw [collapseWS_cons, if_pos ha]
    refine hasAdjWS_cons_of_head ih ?_
    intro b hb
    rcases collapseWS_head? hb with h1 | h1
    · exact Or.inr h1
    · subst h1
      right
      cases hd : (rest.dropWhile pyIsSpace) with
      | nil => rw [hd, collapseWS_nil] at hb; simp at hb
      | cons x t =>
        have hx : pyIsSpace x = false := by
          have := List.head?_dropWhile_not pyIsSpace rest
          rw [hd] at this
          simpa using this
        rw [hd, collapseWS_head_of_not_space hx] at hb
        simp only [List.head?_cons, Option.some.injEq] at hb
        subst hb
        exact hx
  | case3 a rest ha ih =>
    rw [collapseWS_cons, if_neg ha]
    exact hasAdjWS_cons (by simpa using ha) ih

theorem collapseWS_eq_self {l : List Char} (h1 : hasAdjWS l = false)
    (h2 : ∀ c ∈ l, pyIsSpace c = true → c = ' ') : collapseWS l = l := by
  induction l with
  | nil => exact collapseWS_nil
  | cons a rest ih =>
    by_cases ha : pyIsSpace a = true
    · rw [collapseWS_cons, if_pos ha]
      have ha2 : a = ' ' := h2 a (List.mem_cons_self a rest) ha
      have hrest : rest.dropWhile pyIsSpace = rest := by
        cases rest with
        | nil => rfl
        | cons b t =>
          rcases hasAdjWS_pair h1 with hb | hb
          · rw [ha] at hb; cases hb
          · rw [List.dropWhile_cons, hb]
            simp
      rw [hrest, ha2,
        ih (hasAdjWS_tail h1) (fun c hc hcs => h2 c (List.mem_cons_of_mem a hc) hcs)]
    · rw [collapseWS_cons, if_neg ha]
      rw [ih (hasAdjWS_tail h1) (fun c hc hcs => h2 c (List.mem_cons_of_mem a hc) hcs)]

theorem dropTrailingWS_mem {l : List Char} {c : Char} (h : c ∈ dropTrailingWS l) : c ∈ l := by
  induction l with
  | nil => simpa [dropTrailingWS] using h
  | cons a rest ih =>
    rw [dropTrailingWS] at h
    split at h
    · simp at h
    · rcases List.mem_cons.mp h with h1 | h1
      · exact h1 ▸ List.mem_cons_self a rest
      · exact List.mem_cons_of_mem a (ih h1)

theorem dropTrailingWS_head? {l : List Char} {c : Char}
    (h : (dropTrailingWS l).head? = some c) : l.head? = some c := by
  cases l with
  | nil => simp [dropTrailingWS] at h
  | cons a rest =>
    rw [dropTrailingWS] at h
    split at h
    · simp at h
    · simpa using h

theorem dropTrailingWS_getLast? {l : List Char} {c : Char}
    (h : (dropTrailingWS l).getLast? = some c) : pyIsSpace c = false := by
  induction l with
  | nil => simp [dropTrailingWS] at h
  | cons a rest ih =>
    rw [dropTrailingWS] at h
    split at h
    · simp at h
    · rename_i hcond
      cases hr : dropTrailingWS rest with
      | nil =>
        rw [hr] at h hcond
        simp only [List.getLast?_singleton, Option.some.injEq] at h
        subst h
        simpa using hcond
      | cons b t =>
        rw [hr] at h
        rw [show a :: b :: t = a :: (b :: t) from rfl, List.getLast?_cons_cons] at h
        rw [hr] at ih
        exact ih h

theorem dropTrailingWS_eq_self {l : List Char}
    (h : ∀ c, l.getLast? = some c → pyIsSpace c = false) : dropTrailingWS l = l := by
  induction l with
  | nil => rfl
  | cons a rest ih =>
    rw [dropTrailingWS]
    cases rest with
    | nil =>
      have := h a (by simp)
      simp [dropTrailingWS, this]
    | cons b t =>
      have hrest : dropTrailingWS (b :: t) = b :: t := by
        refine ih ?_
        intro c hc
        refine h c ?_
        rw [List.getLast?_cons_cons]
        exact hc
      rw [hrest]
      simp

theorem dropTrailingWS_noAdj {l : List Char} (h : hasAdjWS l = false) :
    hasAdjWS (dropTrailingWS l) = false := by
  induction l with
  | nil => simpa [dropTrailingWS] using h
  | cons a rest ih =>
    rw [dropTrailingWS]
    split
    · rfl
    · refine hasAdjWS_cons_of_head (ih (hasAdjWS_tail h)) ?_
      intro b hb
      have hb2 := dropTrailingWS_head? hb
      cases rest with
      | nil => simp at hb2
      | cons x t =>
        simp only [List.head?_cons, Option.some.injEq] at hb2
        subst hb2
        exact hasAdjWS_pair h

theorem mem_of_mem_dropWhile {p : Char → Bool} {l : List Char} {c : Char}
    (h : c ∈ l.dropWhile p) : c ∈ l := by
  induction l with
  | nil => simpa using h
  | cons a rest ih =>
    rw [List.dropWhile_cons] at h
    split at h
    · exact List.mem_cons_of_mem a (ih h)
    · exact h

theorem stripWS_mem {l : List Char} {c : Char} (h : c ∈ stripWS l) : c ∈ l :=
  mem_of_mem_dropWhile (dropTrailingWS_mem h)

theorem stripWS_head? {l : List Char} {c : Char} (h : (stripWS l).head? = some c) :
    pyIsSpace c = false := by
  have h1 := dropTrailingWS_head? h
  have h2 := List.head?_dropWhile_not pyIsSpace l
  rw [h1] at h2
  simpa using h2

theorem stripWS_getLast? {l : List Char} {c : Char} (h : (stripWS l).getLast? = some c) :
    pyIsSpace c = false :=
  dropTrailingWS_getLast? h

theorem stripWS_noAdj {l : List Char} (h : hasAdjWS l = false) :
    hasAdjWS (stripWS l) = false :=
  dropTrailingWS_noAdj (hasAdjWS_dropWhile h)

theorem dropWhile_eq_self_of_head {p : Char → Bool} {l : List Char}
    (h : ∀ c, l.head? = some c → p c = false) : l.dropWhile p = l := by
  cases l with
  | nil => rfl
  | cons a rest =>
    rw [List.dropWhile_cons, h a rfl]
    simp

theorem stripWS_eq_self {l : List Char}
    (hh : ∀ c, l.head? = some c → pyIsSpace c = false)
    (hl : ∀ c, l.getLast? = some c → pyIsSpace c = false) : stripWS l = l := by
  rw [stripWS, dropWhile_eq_self_of_head hh, dropTrailingWS_eq_self hl]

theorem stripWS_idem (l : List Char) : stripWS (stripWS l) = stripWS l := by
  cases he : stripWS l with
  | nil => rfl
  | cons a rest =>
    rw [← he]
    refine stripWS_eq_self ?_ ?_
    · intro c hc; exact stripWS_head? hc
    · intro c hc; exact stripWS_getLast? hc

theorem findSpans_mem {l s : List Char} (h : s ∈ findSpans l) :
    ∃ pre c r, l = pre ++ c :: r ∧ isSpanStart c = true ∧
      s = c :: r.takeWhile isSpanCont := by
  induction l using findSpans.induct with
  | case1 => rw [findSpans_nil] at h; simp at h
  | case2 c rest hc ih =>
    rw [findSpans_cons, if_pos hc] at h
    rcases List.mem_cons.mp h with h1 | h1
    · exact ⟨[], c, rest, by simp, hc, h1⟩
    · obtain ⟨pre, c2, r, hsplit, hc2, hs⟩ := ih h1
      obtain ⟨pre0, hpre0⟩ := List.dropWhile_suffix (l := rest) (p := isSpanCont)
      refine ⟨(c :: pre0) ++ pre, c2, r, ?_, hc2, hs⟩
      rw [← hpre0, hsplit]
      simp
  | case3 c rest hc ih =>
    rw [findSpans_cons, if_neg hc] at h
    obtain ⟨pre, c2, r, hsplit, hc2, hs⟩ := ih h
    exact ⟨c :: pre, c2, r, by simp [hsplit], hc2, hs⟩

theorem findSpans_single {c : Char} {rest : List Char} (hc : isSpanStart c = true)
    (hall : ∀ x ∈ rest, isSpanCont x = true) : findSpans (c :: rest) = [c :: rest] := by
  rw [findSpans_cons, if_pos hc, List.takeWhile_eq_self_iff.mpr hall,
    List.dropWhile_eq_nil_iff.mpr (fun x hx => by simp [hall x hx]), findSpans_nil]

theorem findSpans_no_start {l : List Char} (h : ∀ c ∈ l, isSpanStart c = false) :
    findSpans l = [] := by
  induction l with
  | nil => exact findSpans_nil
  | cons a rest ih =>
    rw [findSpans_cons, if_neg (by simp [h a (List.mem_cons_self a rest)])]
    exact ih (fun c hc => h c (List.mem_cons_of_mem a hc))

theorem maxByLen_mem {s : List Char} {rest : List (List Char)} :
    maxByLen (s :: rest) ∈ s :: rest := by
  rw [maxByLen]
  induction rest generalizing s with
  | nil => simp
  | cons x xs ih =>
    rw [List.foldl_cons]
    rcases List.mem_cons.mp (ih (s := if s.length < x.length then x else s)) with h1 | h1
    · rw [h1]
      split <;> simp
    · simp [h1]

theorem hasNlNl_append_right {x y : List Char} (h : hasNlNl y = true) :
    hasNlNl (x ++ y) = true := by
  induction x with
  | nil => simpa using h
  | cons a rest ih =>
    cases he : rest ++ y with
    | nil =>
      rcases List.append_eq_nil.mp he with ⟨h1, h2⟩
      subst h2
      simp [hasNlNl] at h
    | cons b t =>
      rw [List.cons_append, he, hasNlNl, ← he, ih]
      simp

theorem hasNlNl_of_decomp {l l1 l2 : List Char} (h : l = l1 ++ '\n' :: '\n' :: l2) :
    hasNlNl l = true := by
  subst h
  refine hasNlNl_append_right ?_
  rw [hasNlNl]
  simp

theorem hasNlNl_append_left {s t : List Char} (hs : '\n' ∉ s) :
    hasNlNl (s ++ t) = hasNlNl t := by
  induction s with
  | nil => rfl
  | cons a rest ih =>
    have ha : a ≠ '\n' := fun hc => hs (hc ▸ List.mem_cons_self a rest)
    have hrest : '\n' ∉ rest := fun hc => hs (List.mem_cons_of_mem a hc)
    cases he : rest ++ t with
    | nil =>
      rcases List.append_eq_nil.mp he with ⟨h1, h2⟩
      subst h1 h2
      simp [hasNlNl]
    | cons b u =>
      rw [List.cons_append, he, hasNlNl, ← he, ih hrest]
      simp [ha]

theorem hasNlNl_nlfree {s : List Char} (hs : '\n' ∉ s) : hasNlNl s = false := by
  have := hasNlNl_append_left (t := []) hs
  simpa using this

theorem joinSep_head? {sep : List Char} {s : List Char} {rest : List (List Char)}
    (hs : s ≠ []) : (joinSep sep (s :: rest)).head? = s.head? := by
  cases rest with
  | nil => rfl
  | cons s2 t =>
    rw [joinSep]
    cases s with
    | nil => exact absurd rfl hs
    | cons a u => simp

theorem joinSep_mem {c : Char} {sep : List Char} {L : List (List Char)}
    (h : c ∈ joinSep sep L) : c ∈ sep ∨ ∃ s ∈ L, c ∈ s := by
  induction L with
  | nil => simp [joinSep] at h
  | cons s rest ih =>
    cases rest with
    | nil =>
      right
      exact ⟨s, List.mem_cons_self s [], by simpa [joinSep] using h⟩
    | cons s2 t =>
      rw [joinSep] at h
      rcases List.mem_append.mp h with h1 | h1
      · rcases List.mem_append.mp h1 with h2 | h2
        · exact Or.inr ⟨s, List.mem_cons_self s _, h2⟩
        · exact Or.inl h2
      · rcases ih h1 with h2 | ⟨s3, hs3, hc3⟩
        · exact Or.inl h2
        · exact Or.inr ⟨s3, List.mem_cons_of_mem s hs3, hc3⟩

theorem splitNl_nlfree {s : List Char} (hs : '\n' ∉ s) : splitNl s = [s] := by
  induction s with
  | nil => rfl
  | cons a rest ih =>
    have ha : a ≠ '\n' := fun hc => hs (hc ▸ List.mem_cons_self a rest)
    have hrest : '\n' ∉ rest := fun hc => hs (List.mem_cons_of_mem a hc)
    rw [splitNl, ih hrest]
    simp [ha]

theorem splitNl_ne_nil (l : List Char) : splitNl l ≠ [] := by
  cases l with
  | nil => simp [splitNl]
  | cons a rest =>
    rw [splitNl]
    cases hs : splitNl rest with
    | nil => simp
    | cons h t => by_cases ha : a = '\n' <;> simp [ha]

theorem splitNl_append_nl {s t : List Char} (hs : '\n' ∉ s) :
    splitNl (s ++ '\n' :: t) = s :: splitNl t := by
  induction s with
  | nil =>
    rw [List.nil_append, splitNl]
    cases hsp : splitNl t with
    | nil => exact absurd hsp (splitNl_ne_nil t)
    | cons h u => simp
  | cons a rest ih =>
    have ha : a ≠ '\n' := fun hc => hs (hc ▸ List.mem_cons_self a rest)
    have hrest : '\n' ∉ rest := fun hc => hs (List.mem_cons_of_mem a hc)
    rw [List.cons_append, splitNl, ih hrest]
    simp [ha]

theorem splitNl_joinSep {L : List (List Char)} (hL : L ≠ [])
    (hfree : ∀ s ∈ L, '\n' ∉ s) : splitNl (joinSep ['\n'] L) = L := by
  induction L with
  | nil => exact absurd rfl hL
  | cons s rest ih =>
    cases rest with
    | nil => exact splitNl_nlfree (hfree s (List.mem_cons_self s []))
    | cons s2 t =>
      have : joinSep ['\n'] (s :: s2 :: t) = s ++ '\n' :: joinSep ['\n'] (s2 :: t) := by
        rw [joinSep]
        simp
      rw [this, splitNl_append_nl (hfree s (List.mem_cons_self s _)),
        ih (by simp) (fun x hx => hfree x (List.mem_cons_of_mem s hx))]

theorem collapseNl_nlfree {s : List Char} (hs : '\n' ∉ s) : collapseNl s = s := by
  induction s with
  | nil => exact collapseNl_nil
  | cons a rest ih =>
    have ha : a ≠ '\n' := fun hc => hs (hc ▸ List.mem_cons_self a rest)
    have hrest : '\n' ∉ rest := fun hc => hs (List.mem_cons_of_mem a hc)
    rw [collapseNl_cons, if_neg (by simpa using ha), ih hrest]

theorem collapseNl_append_nl {s t : List Char} (hs : '\n' ∉ s)
    (ht : ∀ b, t.head? = some b → b ≠ '\n') :
    collapseNl (s ++ '\n' :: t) = s ++ '\n' :: collapseNl t := by
  induction s with
  | nil =>
    rw [List.nil_append, collapseNl_cons, if_pos rfl]
    have htake : t.takeWhile (· = '\n') = [] := by
      cases t with
      | nil => rfl
      | cons b u =>
        rw [List.takeWhile_cons, if_neg (by simpa using ht b rfl)]
    have hdrop : t.dropWhile (· = '\n') = t := by
      refine dropWhile_eq_self_of_head ?_
      intro c hc
      simpa using ht c hc
    rw [htake, hdrop]
    simp
  | cons a rest ih =>
    have ha : a ≠ '\n' := fun hc => hs (hc ▸ List.mem_cons_self a rest)
    have hrest : '\n' ∉ rest := fun hc => hs (List.mem_cons_of_mem a hc)
    rw [List.cons_append, collapseNl_cons, if_neg (by simpa using ha), ih hrest]
    simp

theorem collapseNl_joinSep {L : List (List Char)}
    (h : ∀ s ∈ L, s ≠ [] ∧ '\n' ∉ s) :
    collapseNl (joinSep ['\n'] L) = joinSep ['\n'] L := by
  induction L with
  | nil => exact collapseNl_nil
  | cons s rest ih =>
    cases rest with
    | nil => exact collapseNl_nlfree (h s (List.mem_cons_self s [])).2
    | cons s2 t =>
      have hjoin : joinSep ['\n'] (s :: s2 :: t) = s ++ '\n' :: joinSep ['\n'] (s2 :: t) := by
        rw [joinSep]
        simp
      rw [hjoin]
      rw [collapseNl_append_nl (h s (List.mem_cons_self s _)).2 ?hd]
      · rw [ih (fun x hx => h x (List.mem_cons_of_mem s hx))]
      case hd =>
        intro b hb
        have hs2 := h s2 (List.mem_cons_of_mem s (List.mem_cons_self s2 t))
        rw [joinSep_head? hs2.1] at hb
        intro hbnl
        subst hbnl
        exact hs2.2 (List.mem_of_mem_head? hb)

theorem replaceCRLF_crfree {l : List Char} (h : '\r' ∉ l) : replaceCRLF l = l := by
  induction l with
  | nil => exact replaceCRLF_nil
  | cons a rest ih =>
    have ha : a ≠ '\r' := fun hc => h (hc ▸ List.mem_cons_self a rest)
    have hrest : '\r' ∉ rest := fun hc => h (List.mem_cons_of_mem a hc)
    rw [replaceCRLF_cons, if_neg (by simp [ha]), ih hrest]

theorem mapCR_crfree {l : List Char} (h : '\r' ∉ l) : mapCR l = l := by
  induction l with
  | nil => rfl
  | cons a rest ih =>
    have ha : a ≠ '\r' := fun hc => h (hc ▸ List.mem_cons_self a rest)
    have hrest : '\r' ∉ rest := fun hc => h (List.mem_cons_of_mem a hc)
    rw [mapCR, List.map_cons, if_neg ha]
    have := ih hrest
    rw [mapCR] at this
    rw [this]

theorem filterMap_self {f : List Char → Option (List Char)} {L : List (List Char)}
    (h : ∀ s ∈ L, f s = some s) : L.filterMap f = L := by
  induction L with
  | nil => rfl
  | cons s rest ih =>
    rw [List.filterMap_cons, h s (List.mem_cons_self s rest),
      ih (fun x hx => h x (List.mem_cons_of_mem s hx))]

theorem hasAdjWS_append_right {x y : List Char} (h : hasAdjWS (x ++ y) = false) :
    hasAdjWS y = false := by
  induction x with
  | nil => simpa using h
  | cons a rest ih =>
    refine ih (hasAdjWS_tail (a := a) (l := rest ++ y) ?_)
    simpa using h

theorem mem_of_mem_takeWhile {p : Char → Bool} {l : List Char} {c : Char}
    (h : c ∈ l.takeWhile p) : c ∈ l :=
  (List.takeWhile_sublist p).mem h

theorem cont_narrow {c : Char} (hc : isSpanCont c = true)
    (hsp : pyIsSpace c = true → c = ' ') : narrowChar c = true := by
  simp only [isSpanCont, Bool.or_eq_true] at hc
  rcases hc with (h1 | h1) | h1
  · simp [narrowChar, h1]
  · rw [hsp h1]
    decide
  · simp [narrowChar, h1]

/-- The shape every line appended to `sanitized_lines` has: non-empty,
headed by a span-start character, drawn from the narrow span alphabet,
no two adjacent whitespace characters, already stripped, and past both
quality gates. -/
def GoodSpan (alnum : Char → Bool) (s : List Char) : Prop :=
  s ≠ [] ∧ (∃ hd tl, s = hd :: tl ∧ isSpanStart hd = true) ∧
  (∀ c ∈ s, narrowChar c = true) ∧ hasAdjWS s = false ∧ stripWS s = s ∧
  s.countP alnum ≠ 0 ∧
  ¬ (5 * s.countP isHangulSyl < s.countP alnum ∧ ¬ s.any isLatinLetter = true)

theorem processLine_some_goodSpan {alnum catLN : Char → Bool} {line s : List Char}
    (h : processLine alnum catLN line = some s) : GoodSpan alnum s := by
  rw [processLine] at h
  dsimp only at h
  split at h
  · cases h
  · split at h
    · cases h
    · split at h
      · cases h
      · split at h
        · cases h
        · split at h
          · cases h
          · rename_i hfl hspans hbest hcount hgate
            -- the selected span and its provenance
            have hs : stripWS (maxByLen
                (findSpans (stripWS (collapseWS (line.filter (is_allowed_char catLN)))))) =
                s := by
              injection h
            set fl := stripWS (collapseWS (line.filter (is_allowed_char catLN))) with hfldef
            have hfl_space : ∀ c ∈ fl, pyIsSpace c = true → c = ' ' := by
              intro c hc hcs
              exact collapseWS_mem_space (stripWS_mem hc) hcs
            have hfl_noAdj : hasAdjWS fl = false := stripWS_noAdj (collapseWS_noAdj _)
            have hy : maxByLen (findSpans fl) ∈ findSpans fl := by
              cases hfs : findSpans fl with
              | nil => rw [hfs] at hspans; simp at hspans
              | cons s0 spans => exact maxByLen_mem
            obtain ⟨pre, hd, r, hflsplit, hhd, hy2⟩ := findSpans_mem hy
            -- s = stripWS (hd :: r.takeWhile isSpanCont)
            rw [hy2] at hs hbest hcount hgate
            rw [hs] at hbest hcount hgate
            have hyhead : pyIsSpace hd = false := isSpanStart_not_space hhd
            have hymem : ∀ c ∈ hd :: r.takeWhile isSpanCont, c ∈ fl := by
              intro c hc
              rcases List.mem_cons.mp hc with h1 | h1
              · subst h1
                rw [hflsplit]
                exact List.mem_append.mpr (Or.inr (List.mem_cons_self _ _))
              · have : c ∈ r := mem_of_mem_takeWhile h1
                rw [hflsplit]
                exact List.mem_append.mpr (Or.inr (List.mem_cons_of_mem _ this))
            have hycont : ∀ c ∈ hd :: r.takeWhile isSpanCont, isSpanCont c = true := by
              intro c hc
              rcases List.mem_cons.mp hc with h1 | h1
              · subst h1
                simp [isSpanCont, hhd]
              · exact List.mem_takeWhile_imp h1
            have hynoAdj : hasAdjWS (hd :: r.takeWhile isSpanCont) = false := by
              have h1 : hasAdjWS (hd :: r) = false := by
                have := hflsplit ▸ hfl_noAdj
                exact hasAdjWS_append_right this
              exact hasAdjWS_cons_takeWhile h1
            -- properties of s
            have hsne : s ≠ [] := by
              intro hc
              rw [hc] at hbest
              exact hbest rfl
            have hsmem : ∀ c ∈ s, narrowChar c = true := by
              intro c hc
              rw [← hs] at hc
              have h1 := stripWS_mem hc
              exact cont_narrow (hycont c h1) (fun hcs => hfl_space c (hymem c h1) hcs)
            refine ⟨hsne, ?_, hsmem, ?_, ?_, ?_, ?_⟩
            · -- head of s is hd
              cases hsc : s with
              | nil => exact absurd hsc hsne
              | cons d u =>
                refine ⟨d, u, rfl, ?_⟩
                have hdw : (hd :: r.takeWhile isSpanCont).dropWhile pyIsSpace =
                    hd :: r.takeWhile isSpanCont := by
                  refine dropWhile_eq_self_of_head ?_
                  intro c hc
                  simp only [List.head?_cons, Option.some.injEq] at hc
                  subst hc
                  exact hyhead
                have : s.head? = some d := by rw [hsc]; rfl
                rw [← hs] at this
                rw [stripWS, hdw] at this
                have h2 := dropTrailingWS_head? this
                simp only [List.head?_cons, Option.some.injEq] at h2
                subst h2
                exact hhd
            · rw [← hs]
              exact stripWS_noAdj hynoAdj
            · rw [← hs]
              exact stripWS_idem _
            · exact hcount
            · exact hgate

theorem processLine_fix {alnum catLN : Char → Bool} {s : List Char} (h : GoodSpan alnum s) :
    processLine alnum catLN s = some s := by
  obtain ⟨hne, ⟨hd, tl, rfl, hstart⟩, hnarrow, hnoAdj, hstrip, hcount, hgate⟩ := h
  have hfilter : (hd :: tl).filter (is_allowed_char catLN) = hd :: tl :=
    List.filter_eq_self.mpr (fun c hc => narrowChar_allowed catLN (hnarrow c hc))
  have hcoll : collapseWS (hd :: tl) = hd :: tl :=
    collapseWS_eq_self hnoAdj (fun c hc hcs => narrowChar_space (hnarrow c hc) hcs)
  have hspans : findSpans (hd :: tl) = [hd :: tl] :=
    findSpans_single hstart
      (fun x hx => narrowChar_cont (hnarrow x (List.mem_cons_of_mem hd hx)))
  have hmax : maxByLen [hd :: tl] = hd :: tl := by
    rw [maxByLen]
    rfl
  rw [processLine, hfilter, hcoll, hstrip, if_neg (by simp), hspans,
    if_neg (by simp), hmax, hstrip, if_neg (by simp), if_neg hcount, if_neg hgate]

theorem processLine_nil (alnum catLN : Char → Bool) : processLine alnum catLN [] = none := by
  rw [processLine]
  simp only [List.filter_nil, collapseWS_nil]
  rw [show stripWS [] = [] from rfl]
  simp

theorem normalize_text_eq_joinSep (alnum catLN : Char → Bool) (raw : List Char) :
    normalize_text alnum catLN raw = joinSep ['\n'] (sanitizedLines alnum catLN raw) := rfl

theorem sanitizedLines_goodSpan {alnum catLN : Char → Bool} {raw s : List Char}
    (h : s ∈ sanitizedLines alnum catLN raw) : GoodSpan alnum s := by
  rw [sanitizedLines] at h
  obtain ⟨line, _, hline⟩ := List.mem_filterMap.mp h
  exact processLine_some_goodSpan hline

theorem goodSpan_nl_not_mem {alnum : Char → Bool} {s : List Char} (h : GoodSpan alnum s) :
    '\n' ∉ s := by
  intro hc
  exact (narrowChar_facts (h.2.2.1 _ hc)).1 rfl

theorem joinSep_goodSpan_mem {alnum : Char → Bool} {L : List (List Char)}
    (h : ∀ s ∈ L, GoodSpan alnum s) {c : Char} (hc : c ∈ joinSep ['\n'] L) :
    c = '\n' ∨ narrowChar c = true := by
  rcases joinSep_mem hc with h1 | ⟨s, hs, hcs⟩
  · simp at h1
    exact Or.inl h1
  · exact Or.inr ((h s hs).2.2.1 c hcs)

theorem hasNlNl_joinSep {L : List (List Char)} (h : ∀ s ∈ L, s ≠ [] ∧ '\n' ∉ s) :
    hasNlNl (joinSep ['\n'] L) = false := by
  induction L with
  | nil => rfl
  | cons s rest ih =>
    cases rest with
    | nil => exact hasNlNl_nlfree (h s (List.mem_cons_self s [])).2
    | cons s2 t =>
      have hjoin : joinSep ['\n'] (s :: s2 :: t) = s ++ '\n' :: joinSep ['\n'] (s2 :: t) := by
        rw [joinSep]
        simp
      rw [hjoin, hasNlNl_append_left (h s (List.mem_cons_self s _)).2]
      have hs2 := h s2 (List.mem_cons_of_mem s (List.mem_cons_self s2 t))
      cases hX : joinSep ['\n'] (s2 :: t) with
      | nil =>
        have := @joinSep_head? ['\n'] s2 t hs2.1
        rw [hX] at this
        cases hs2c : s2 with
        | nil => exact absurd hs2c hs2.1
        | cons b u => rw [hs2c] at this; simp at this
      | cons b u =>
        have hbhead : b ≠ '\n' := by
          have := @joinSep_head? ['\n'] s2 t hs2.1
          rw [hX] at this
          intro hb
          subst hb
          exact hs2.2 (List.mem_of_mem_head? this.symm)
        rw [hasNlNl]
        have hrec := ih (fun x hx => h x (List.mem_cons_of_mem s hx))
        rw [hX] at hrec
        rw [hrec]
        simp [hbhead]

theorem normalize_text_fix {alnum catLN : Char → Bool} {L : List (List Char)}
    (h : ∀ s ∈ L, GoodSpan alnum s) :
    normalize_text alnum catLN (joinSep ['\n'] L) = joinSep ['\n'] L := by
  have hchar : ∀ c ∈ joinSep ['\n'] L, c = '\n' ∨ narrowChar c = true :=
    fun c hc => joinSep_goodSpan_mem h hc
  have hcr : '\r' ∉ joinSep ['\n'] L := by
    intro hc
    rcases hchar _ hc with h1 | h1
    · cases h1
    · exact (narrowChar_facts h1).2.1 rfl
  have hnl : ∀ s ∈ L, s ≠ [] ∧ '\n' ∉ s :=
    fun s hs => ⟨(h s hs).1, goodSpan_nl_not_mem (h s hs)⟩
  have hnul : (joinSep ['\n'] L).filter (fun c => !(c = '\x00' : Bool)) = joinSep ['\n'] L :=
    List.filter_eq_self.mpr (fun c hc => by
      rcases hchar c hc with h1 | h1
      · subst h1; decide
      · simpa using (narrowChar_facts h1).2.2.1)
  have hctrl : (joinSep ['\n'] L).filter (fun c => !(isStripCtrl c)) = joinSep ['\n'] L :=
    List.filter_eq_self.mpr (fun c hc => by
      rcases hchar c hc with h1 | h1
      · subst h1; decide
      · simpa using (narrowChar_facts h1).2.2.2)
  rw [normalize_text]
  rw [replaceCRLF_crfree hcr, mapCR_crfree hcr, hnul, hctrl]
  rw [collapseNl_joinSep hnl]
  cases L with
  | nil =>
    rw [show joinSep ['\n'] ([] : List (List Char)) = [] from rfl]
    rw [show splitNl [] = [[]] from rfl]
    rw [List.filterMap, processLine_nil]
    rfl
  | cons s rest =>
    rw [splitNl_joinSep (by simp) (fun x hx => (hnl x hx).2)]
    rw [filterMap_self (fun x hx => processLine_fix (h x hx))]

/-- Idempotence of the normalizer, for every choice of the Unicode
classification parameters. -/
theorem normalize_text_idem (alnum catLN : Char → Bool) (raw : List Char) :
    normalize_text alnum catLN (normalize_text alnum catLN raw) =
      normalize_text alnum catLN raw := by
  rw [normalize_text_eq_joinSep alnum catLN raw]
  exact normalize_text_fix (fun s hs => sanitizedLines_goodSpan hs)

theorem score_text_nonneg (t : List Char) : 0 ≤ score_text t := by
  have h1 : 0 ≤ _printable_ratio t := by
    rw [_printable_ratio]
    split
    · exact le_refl 0
    · positivity
  have h2 : 0 ≤ _hangul_ratio t := by
    rw [_hangul_ratio]
    split
    · exact le_refl 0
    · positivity
  rw [score_text]
  linarith

theorem candLoop_spec (cands : List (Option (List Char))) (bt : List Char) (bs : ℚ)
    (hbs : bs ≤ 6 / 5) :
    ((candLoop cands bt bs).2.2.1 = false →
      bs ≤ (candLoop cands bt bs).2.1 ∧ (candLoop cands bt bs).2.1 ≤ 6 / 5 ∧
      ((candLoop cands bt bs).2.1 = score_text (candLoop cands bt bs).1 ∨
        ((candLoop cands bt bs).1 = bt ∧ (candLoop cands bt bs).2.1 = bs))) ∧
    ((candLoop cands bt bs).2.2.1 = true →
      (candLoop cands bt bs).2.1 = score_text (candLoop cands bt bs).1 ∧
      6 / 5 < (candLoop cands bt bs).2.1) ∧
    (∀ t ∈ (candLoop cands bt bs).2.2.2,
      score_text t ≤ (candLoop cands bt bs).2.1) := by
  induction cands generalizing bt bs with
  | nil =>
    rw [show candLoop [] bt bs = (bt, bs, false, []) from rfl]
    refine ⟨?_, ?_, ?_⟩
    · exact fun _ => ⟨le_refl bs, hbs, Or.inr ⟨rfl, rfl⟩⟩
    · intro h
      simp at h
    · intro t ht
      simp at ht
  | cons c rest ih =>
    cases c with
    | none =>
      rw [show candLoop (none :: rest) bt bs = candLoop rest bt bs from rfl]
      exact ih bt bs hbs
    | some t =>
      by_cases h65 : (6:ℚ) / 5 < score_text t
      · rw [show candLoop (some t :: rest) bt bs = (t, score_text t, true, [t]) by
          rw [candLoop]; simp [h65]]
        refine ⟨?_, ?_, ?_⟩
        · intro h
          simp at h
        · exact fun _ => ⟨rfl, h65⟩
        · intro u hu
          simp only [List.mem_singleton] at hu
          subst hu
          exact le_refl _
      · push_neg at h65
        have hupd : candLoop (some t :: rest) bt bs =
            ((candLoop rest (if bs < score_text t then t else bt)
                (if bs < score_text t then score_text t else bs)).1,
             (candLoop rest (if bs < score_text t then t else bt)
                (if bs < score_text t then score_text t else bs)).2.1,
             (candLoop rest (if bs < score_text t then t else bt)
                (if bs < score_text t then score_text t else bs)).2.2.1,
             t :: (candLoop rest (if bs < score_text t then t else bt)
                (if bs < score_text t then score_text t else bs)).2.2.2) := by
          rw [candLoop]
          simp only [if_neg (not_lt.mpr h65)]
        set bt2 := if bs < score_text t then t else bt with hbt2
        set bs2 := if bs < score_text t then score_text t else bs with hbs2
        have hbs2le : bs2 ≤ 6 / 5 := by
          rw [hbs2]
          split
          · exact h65
          · exact hbs
        have hbsle2 : bs ≤ bs2 := by
          rw [hbs2]
          split
          · rename_i hlt
            exact le_of_lt hlt
          · exact le_refl bs
        have hscle2 : score_text t ≤ bs2 := by
          rw [hbs2]
          split
          · exact le_refl _
          · rename_i hlt
            exact not_lt.mp hlt
        obtain ⟨hA, hB, hD⟩ := ih bt2 bs2 hbs2le
        rw [hupd]
        dsimp only
        refine ⟨?_, ?_, ?_⟩
        · intro hearly
          obtain ⟨h1, h2, h3⟩ := hA hearly
          refine ⟨le_trans hbsle2 h1, h2, ?_⟩
          rcases h3 with h4 | ⟨h4, h5⟩
          · exact Or.inl h4
          · by_cases hlt : bs < score_text t
            · left
              have e1 : bt2 = t := by rw [hbt2, if_pos hlt]
              have e2 : bs2 = score_text t := by rw [hbs2, if_pos hlt]
              rw [h4, h5, e1, e2]
            · right
              have e1 : bt2 = bt := by rw [hbt2, if_neg hlt]
              have e2 : bs2 = bs := by rw [hbs2, if_neg hlt]
              exact ⟨h4.trans e1, h5.trans e2⟩
        · intro hearly
          exact hB hearly
        · intro u hu
          rcases List.mem_cons.mp hu with h1 | h1
          · subst h1
            cases he : (candLoop rest bt2 bs2).2.2.1 with
            | true =>
              have h2 := (hB he).2
              linarith
            | false =>
              have h2 := (hA he).1
              linarith
          · exact hD u h1

theorem smart_decode_best (d : Decoders) (raw : List Nat) :
    ∀ t ∈ smart_decode_attempts d raw, score_text t ≤ score_text (smart_decode d raw) := by
  have hm : (-1 : ℚ) ≤ 6 / 5 := by norm_num
  have hspec1 := candLoop_spec (smart_decode_cands1 d raw) [] (-1) hm
  rw [show candLoop (smart_decode_cands1 d raw) [] (-1) = smart_decode_pass1 d raw
    from rfl] at hspec1
  obtain ⟨hA1, hB1, hD1⟩ := hspec1
  intro t ht
  rw [smart_decode_attempts, smart_decode_full] at ht
  rw [smart_decode, smart_decode_full]
  by_cases he1 : (smart_decode_pass1 d raw).2.2.1 = true
  · rw [if_pos he1] at ht ⊢
    have h1 := hD1 t ht
    have h2 := (hB1 he1).1
    linarith [h1, le_of_eq h2]
  · have he1f : (smart_decode_pass1 d raw).2.2.1 = false := by
      simpa using he1
    rw [if_neg (by simp [he1f])] at ht ⊢
    obtain ⟨hs1lo, hs1hi, hs1eq⟩ := hA1 he1f
    by_cases hc2 : looksUtf16 raw = true ∧ (smart_decode_pass1 d raw).2.1 < 9 / 10 ∧
        4 ≤ raw.length
    · rw [if_pos hc2] at ht ⊢
      have hspec2 := candLoop_spec (smart_decode_cands2 d raw) (smart_decode_pass1 d raw).1
        (smart_decode_pass1 d raw).2.1 hs1hi
      rw [show candLoop (smart_decode_cands2 d raw) (smart_decode_pass1 d raw).1
          (smart_decode_pass1 d raw).2.1 = smart_decode_pass2 d raw from rfl] at hspec2
      obtain ⟨hA2, hB2, hD2⟩ := hspec2
      by_cases he2 : (smart_decode_pass2 d raw).2.2.1 = true
      · obtain ⟨heq2, hgt2⟩ := hB2 he2
        rcases List.mem_append.mp ht with h1 | h1
        · have := hD1 t h1
          linarith
        · have := hD2 t h1
          linarith [le_of_eq heq2]
      · have he2f : (smart_decode_pass2 d raw).2.2.1 = false := by
          simpa using he2
        obtain ⟨hs2lo, hs2hi, hs2eq⟩ := hA2 he2f
        have hkey : ∀ u, score_text u ≤ (smart_decode_pass2 d raw).2.1 →
            score_text u ≤ score_text (smart_decode_pass2 d raw).1 := by
          intro u hu
          rcases hs2eq with h2 | ⟨h2t, h2s⟩
          · linarith [le_of_eq h2.symm]
          · rcases hs1eq with h3 | ⟨h3t, h3s⟩
            · rw [h2t]
              have : (smart_decode_pass2 d raw).2.1 = score_text (smart_decode_pass1 d raw).1 := by
                rw [h2s, h3]
              linarith
            · have hneg : (smart_decode_pass2 d raw).2.1 = -1 := by rw [h2s, h3s]
              have := score_text_nonneg u
              have h0 : score_text u ≤ -1 := hneg ▸ hu
              linarith
        rcases List.mem_append.mp ht with h1 | h1
        · exact hkey t (le_trans (hD1 t h1) hs2lo)
        · exact hkey t (hD2 t h1)
    · rw [if_neg hc2] at ht ⊢
      rcases hs1eq with h2 | ⟨h2t, h2s⟩
      · have := hD1 t ht
        linarith [le_of_eq h2.symm]
      · have := hD1 t ht
        have h0 := score_text_nonneg t
        rw [h2s] at this
        linarith

theorem smart_decode_empty_of_replace (d : Decoders)
    (h : ∀ e, d.replace e [] = []) : smart_decode d [] = [] := by
  have hlooks : looksUtf16 ([] : List Nat) = false := rfl
  have hc : smart_decode_cands1 d [] = [some [], some [], some []] := by
    rw [smart_decode_cands1, hlooks]
    rw [h .cp949, h .euckr, h .utf8]
    rfl
  have hscore : score_text [] = 0 := by
    rw [score_text, _printable_ratio, _hangul_ratio]
    norm_num
  have hp1 : smart_decode_pass1 d [] = ([], 0, false, [[], [], []]) := by
    rw [smart_decode_pass1, hc]
    rw [candLoop]
    simp only [hscore]
    norm_num
    rw [candLoop]
    simp only [hscore]
    norm_num
    rw [candLoop]
    simp only [hscore]
    norm_num
    rw [candLoop]
    exact ⟨rfl, rfl, rfl, rfl⟩
  rw [smart_decode, smart_decode_full, hp1]
  norm_num [hlooks]

theorem smart_decode_early_utf16le {d : Decoders} {raw : List Nat} {t : List Char}
    (hlooks : looksUtf16 raw = true) (hdec : d.strict .utf16le raw = some t)
    (hsc : 6 / 5 < score_text t) : smart_decode d raw = t := by
  have hc : smart_decode_cands1 d raw = some t ::
      ([d.strict .utf16be raw, some (d.replace .utf16 raw)] ++
       [some (d.replace .cp949 raw), some (d.replace .euckr raw),
        some (d.replace .utf8 raw)]) := by
    rw [smart_decode_cands1, hlooks, hdec]
    rfl
  have hp1 : smart_decode_pass1 d raw = (t, score_text t, true, [t]) := by
    rw [smart_decode_pass1, hc, candLoop]
    simp [hsc]
  rw [smart_decode, smart_decode_full, hp1]
  rfl

/-- Fueled, structurally recursive clone of `replaceCRLF`, for evaluating
the pipeline on concrete inputs (the fuel is an upper bound on the
length). -/
def replaceCRLFRun : Nat → List Char → List Char
  | 0, l => l
  | _ + 1, [] => []
  | fuel + 1, a :: rest =>
    if a = '\r' ∧ rest.head? = some '\n' then '\n' :: replaceCRLFRun fuel rest.tail
    else a :: replaceCRLFRun fuel rest

theorem replaceCRLFRun_eq : ∀ (fuel : Nat) (l : List Char), l.length ≤ fuel →
    replaceCRLFRun fuel l = replaceCRLF l := by
  intro fuel
  induction fuel with
  | zero =>
    intro l hl
    rw [List.length_eq_zero.mp (Nat.le_zero.mp hl)]
    exact replaceCRLF_nil.symm
  | succ n ih =>
    intro l hl
    cases l with
    | nil => exact replaceCRLF_nil.symm
    | cons a rest =>
      rw [replaceCRLFRun, replaceCRLF_cons]
      simp only [List.length_cons] at hl
      split
      · rename_i hcond
        cases rest with
        | nil => simp at hcond
        | cons b u =>
          simp only [List.tail_cons]
          rw [ih u (by simp at hl; omega)]
      · rw [ih rest (by omega)]

/-- Fueled clone of `collapseNl`. -/
def collapseNlRun : Nat → List Char → List Char
  | 0, l => l
  | _ + 1, [] => []
  | fuel + 1, c :: rest =>
    if c = '\n' then
      (if 2 ≤ (rest.takeWhile (· = '\n')).length then ['\n', '\n']
       else '\n' :: rest.takeWhile (· = '\n')) ++
      collapseNlRun fuel (rest.dropWhile (· = '\n'))
    else c :: collapseNlRun fuel rest

theorem collapseNlRun_eq : ∀ (fuel : Nat) (l : List Char), l.length ≤ fuel →
    collapseNlRun fuel l = collapseNl l := by
  intro fuel
  induction fuel with
  | zero =>
    intro l hl
    rw [List.length_eq_zero.mp (Nat.le_zero.mp hl)]
    exact collapseNl_nil.symm
  | succ n ih =>
    intro l hl
    cases l with
    | nil => exact collapseNl_nil.symm
    | cons a rest =>
      rw [collapseNlRun, collapseNl_cons]
      simp only [List.length_cons] at hl
      split
      · rw [ih (rest.dropWhile (· = '\n'))
          (le_trans (length_dropWhile_le _ rest) (by omega))]
      · rw [ih rest (by omega)]

/-- Fueled clone of `collapseWS`. -/
def collapseWSRun : Nat → List Char → List Char
  | 0, l => l
  | _ + 1, [] => []
  | fuel + 1, c :: rest =>
    if pyIsSpace c then ' ' :: collapseWSRun fuel (rest.dropWhile pyIsSpace)
    else c :: collapseWSRun fuel rest

theorem collapseWSRun_eq : ∀ (fuel : Nat) (l : List Char), l.length ≤ fuel →
    collapseWSRun fuel l = collapseWS l := by
  intro fuel
  induction fuel with
  | zero =>
    intro l hl
    rw [List.length_eq_zero.mp (Nat.le_zero.mp hl)]
    exact collapseWS_nil.symm
  | succ n ih =>
    intro l hl
    cases l with
    | nil => exact collapseWS_nil.symm
    | cons a rest =>
      rw [collapseWSRun, collapseWS_cons]
      simp only [List.length_cons] at hl
      split
      · rw [ih (rest.dropWhile pyIsSpace)
          (le_trans (length_dropWhile_le _ rest) (by omega))]
      · rw [ih rest (by omega)]

/-- Fueled clone of `findSpans`. -/
def findSpansRun : Nat → List Char → List (List Char)
  | 0, _ => []
  | _ + 1, [] => []
  | fuel + 1, c :: rest =>
    if isSpanStart c then
      (c :: rest.takeWhile isSpanCont) :: findSpansRun fuel (rest.dropWhile isSpanCont)
    else findSpansRun fuel rest

theorem findSpansRun_eq : ∀ (fuel : Nat) (l : List Char), l.length ≤ fuel →
    findSpansRun fuel l = findSpans l := by
  intro fuel
  induction fuel with
  | zero =>
    intro l hl
    rw [List.length_eq_zero.mp (Nat.le_zero.mp hl)]
    exact findSpans_nil.symm
  | succ n ih =>
    intro l hl
    cases l with
    | nil => exact findSpans_nil.symm
    | cons a rest =>
      rw [findSpansRun, findSpans_cons]
      simp only [List.length_cons] at hl
      split
      · rw [ih (rest.dropWhile isSpanCont)
          (le_trans (length_dropWhile_le _ rest) (by omega))]
      · rw [ih rest (by omega)]

/-- Fueled clone of `stripTags`. -/
def stripTagsRun : Nat → List Char → List Char
  | 0, l => l
  | _ + 1, [] => []
  | fuel + 1, c :: rest =>
    if c = '<' then
      if (rest.takeWhile (· ≠ '>')).length < rest.length ∧
          ¬ (rest.takeWhile (· ≠ '>')).isEmpty then
        ' ' :: stripTagsRun fuel (rest.drop ((rest.takeWhile (· ≠ '>')).length + 1))
      else '<' :: stripTagsRun fuel rest
    else c :: stripTagsRun fuel rest

theorem stripTagsRun_eq : ∀ (fuel : Nat) (l : List Char), l.length ≤ fuel →
    stripTagsRun fuel l = stripTags l := by
  intro fuel
  induction fuel with
  | zero =>
    intro l hl
    rw [List.length_eq_zero.mp (Nat.le_zero.mp hl)]
    exact stripTags_nil.symm
  | succ n ih =>
    intro l hl
    cases l with
    | nil => exact stripTags_nil.symm
    | cons a rest =>
      rw [stripTagsRun, stripTags_cons]
      simp only [List.length_cons] at hl
      split
      · split
        · rw [ih (rest.drop ((rest.takeWhile (· ≠ '>')).length + 1))
            (le_trans (by simp) (by omega : rest.length ≤ n))]
        · rw [ih rest (by omega)]
      · rw [ih rest (by omega)]

/-- Executable clone of `processLine` (kernel-reducible). -/
def processLineRun (alnum catLN : Char → Bool) (raw_line : List Char) :
    Option (List Char) :=
  let filtered0 := raw_line.filter (is_allowed_char catLN)
  let filtered_line := stripWS (collapseWSRun filtered0.length filtered0)
  if filtered_line.isEmpty then none
  else
    let candidate_spans := findSpansRun filtered_line.length filtered_line
    if candidate_spans.isEmpty then none
    else
      let best_span := stripWS (maxByLen candidate_spans)
      if best_span.isEmpty then none
      else
        let hangul_chars := best_span.countP isHangulSyl
        let alnum_chars := best_span.countP alnum
        if alnum_chars = 0 then none
        else if 5 * hangul_chars < alnum_chars ∧ ¬ best_span.any isLatinLetter then none
        else some best_span

theorem processLineRun_eq (alnum catLN : Char → Bool) (raw_line : List Char) :
    processLineRun alnum catLN raw_line = processLine alnum catLN raw_line := by
  rw [processLineRun, processLine]
  rw [collapseWSRun_eq _ _ (le_refl _), findSpansRun_eq _ _ (le_refl _)]

/-- Executable clone of `sanitizedLines`. -/
def sanitizedLinesRun (alnum catLN : Char → Bool) (raw : List Char) :
    List (List Char) :=
  let c1 := mapCR (replaceCRLFRun raw.length raw)
  let c2 := c1.filter (fun c => !(c = '\x00' : Bool))
  let c3 := c2.filter (fun c => !(isStripCtrl c))
  let c4 := collapseNlRun c3.length c3
  (splitNl c4).filterMap (processLineRun alnum catLN)

theorem sanitizedLinesRun_eq (alnum catLN : Char → Bool) (raw : List Char) :
    sanitizedLinesRun alnum catLN raw = sanitizedLines alnum catLN raw := by
  rw [sanitizedLinesRun, sanitizedLines]
  rw [replaceCRLFRun_eq _ _ (le_refl _), collapseNlRun_eq _ _ (le_refl _)]
  congr 1
  funext line
  exact processLineRun_eq alnum catLN line

/-- Executable clone of `normalize_text`. -/
def normalize_textRun (alnum catLN : Char → Bool) (raw : List Char) : List Char :=
  joinSep ['\n'] (sanitizedLinesRun alnum catLN raw)

theorem normalize_textRun_eq (alnum catLN : Char → Bool) (raw : List Char) :
    normalize_textRun alnum catLN raw = normalize_text alnum catLN raw := by
  rw [normalize_textRun, sanitizedLinesRun_eq, normalize_text_eq_joinSep]

theorem collapseWS_mem {l : List Char} {c : Char} (h : c ∈ collapseWS l) :
    c = ' ' ∨ c ∈ l := by
  induction l using collapseWS.induct with
  | case1 => rw [collapseWS_nil] at h; simp at h
  | case2 a rest ha ih =>
    rw [collapseWS_cons, if_pos ha] at h
    rcases List.mem_cons.mp h with h1 | h1
    · exact Or.inl h1
    · rcases ih h1 with h2 | h2
      · exact Or.inl h2
      · exact Or.inr (List.mem_cons_of_mem a (mem_of_mem_dropWhile h2))
  | case3 a rest ha ih =>
    rw [collapseWS_cons, if_neg ha] at h
    rcases List.mem_cons.mp h with h1 | h1
    · exact Or.inr (h1 ▸ List.mem_cons_self a rest)
    · rcases ih h1 with h2 | h2
      · exact Or.inl h2
      · exact Or.inr (List.mem_cons_of_mem a h2)

theorem isSpanStart_pyIsAlnum {c : Char} (h : isSpanStart c = true) : pyIsAlnum c = true := by
  simp only [isSpanStart, Bool.or_eq_true] at h
  rcases h with (h1 | h1) | h1
  · simp [pyIsAlnum, pyIsAlpha, h1]
  · simp [pyIsAlnum, pyIsAlpha, h1]
  · simp [pyIsAlnum, h1]

theorem is_allowed_char_nl (catLN : Char → Bool) : is_allowed_char catLN '\n' = true := by
  have h : pyIsSpace '\n' = true := by decide
  simp [is_allowed_char, h]

theorem processLine_no_alnum {alnum catLN : Char → Bool} {line : List Char}
    (h : ∀ c ∈ line, pyIsAlnum c = false) : processLine alnum catLN line = none := by
  rw [processLine]
  split
  · rfl
  · have hstart : ∀ c ∈ stripWS (collapseWS (line.filter (is_allowed_char catLN))),
        isSpanStart c = false := by
      intro c hc
      rcases collapseWS_mem (stripWS_mem hc) with h1 | h1
      · subst h1; decide
      · have h2 := h c (List.mem_of_mem_filter h1)
        cases hs : isSpanStart c
        · rfl
        · rw [isSpanStart_pyIsAlnum hs] at h2; cases h2
    rw [findSpans_no_start hstart]
    simp

theorem extract_text_error_origin (env : Env) (e : PyExc)
    (h : extract_text env = .error e) :
    ∃ e', extract_with_hwp_extract env = .error e' ∧
      e = .runtimeError (excMsg e' ++ pySuffix env) := by
  rw [extract_text, extract_text_core] at h
  dsimp only at h
  by_cases h1 : truthyOpt (try_hwpx env) = true
  · rw [if_pos h1] at h
    simp at h
  · rw [if_neg h1] at h
    by_cases h2 : env.hasPyhwp = true
    · rw [if_pos h2] at h
      by_cases h3 : truthyOpt (extract_with_pyhwp env).1 = true
      · rw [if_pos h3] at h
        simp at h
      · rw [if_neg h3] at h
        dsimp only at h
        rw [extract_text_fallback.eq_def] at h
        cases hex : extract_with_hwp_extract env with
        | ok v => rw [hex] at h; simp at h
        | error e2 =>
          rw [hex] at h
          refine ⟨e2, rfl, ?_⟩
          have hsuf : pySuffix env =
              (match (extract_with_pyhwp env).2 with
               | some e3 => " (pyhwp failed: ".toList ++ excMsg e3 ++ ")".toList
               | none => []) := by
            rw [pySuffix, pyhwp_err, if_pos h2]
          rw [hsuf]
          exact (Except.error.inj h).symm
    · rw [if_neg h2] at h
      dsimp only at h
      rw [extract_text_fallback.eq_def] at h
      cases hex : extract_with_hwp_extract env with
      | ok v => rw [hex] at h; simp at h
      | error e2 =>
        rw [hex] at h
        refine ⟨e2, rfl, ?_⟩
        have hsuf : pySuffix env = [] := by
          rw [pySuffix, pyhwp_err, if_neg h2]
        rw [hsuf]
        have := (Except.error.inj h).symm
        simpa using this

theorem extract_with_hwp_extract_no_content (env : Env) (data : List Nat)
    (streams : List HStream) (h1 : env.readData = .ok data)
    (h2 : env.extractFiles = .ok streams) (h3 : hwpFragments env streams = []) :
    extract_with_hwp_extract env = .error (.runtimeError noContentMsg) := by
  rw [extract_with_hwp_extract, h1, h2]
  dsimp only
  rw [if_pos (by rw [h3]; rfl)]

theorem extract_text_terminal (env : Env) (data : List Nat) (streams : List HStream)
    (hhwpx : truthyOpt (try_hwpx env) = false)
    (hpy : env.hasPyhwp = true → truthyOpt (extract_with_pyhwp env).1 = false)
    (h1 : env.readData = .ok data) (h2 : env.extractFiles = .ok streams)
    (h3 : hwpFragments env streams = []) :
    extract_text env = .error (.runtimeError (noContentMsg ++ pySuffix env)) := by
  have hex := extract_with_hwp_extract_no_content env data streams h1 h2 h3
  rw [extract_text, extract_text_core]
  dsimp only
  rw [if_neg (by rw [hhwpx]; simp)]
  by_cases hp : env.hasPyhwp = true
  · rw [if_pos hp]
    rw [if_neg (by rw [hpy hp]; simp)]
    dsimp only
    rw [extract_text_fallback.eq_def, hex]
    have hsuf : pySuffix env =
        (match (extract_with_pyhwp env).2 with
         | some e3 => " (pyhwp failed: ".toList ++ excMsg e3 ++ ")".toList
         | none => []) := by
      rw [pySuffix, pyhwp_err, if_pos hp]
    rw [hsuf]
    rfl
  · rw [if_neg hp]
    dsimp only
    rw [extract_text_fallback.eq_def, hex]
    have hsuf : pySuffix env = [] := by
      rw [pySuffix, pyhwp_err, if_neg hp]
    rw [hsuf]
    simp [excMsg]

theorem pySuffix_ne_nil_iff (env : Env) :
    pySuffix env ≠ [] ↔ env.hasPyhwp = true ∧ ((extract_with_pyhwp env).2).isSome := by
  rw [pySuffix, pyhwp_err]
  by_cases hp : env.hasPyhwp = true
  · rw [if_pos hp]
    cases he : (extract_with_pyhwp env).2 with
    | none => simp [hp]
    | some e => simp [hp]
  · rw [if_neg hp]
    simp [hp]

theorem try_hwpx_scenario (env : Env) (B : List Nat) (X t : List Char)
    (hsig : env.sigRead = .ok zipSignature)
    (hzip : env.zipEntries = .ok [("Contents/Section0.xml".toList, B)])
    (hdec : env.dec.strict .utf8 B = some X)
    (hnorm : normalize_text env.alnum env.catLN (stripTags X) = t) :
    try_hwpx env = some t := by
  have hbody : try_hwpx_body env = .ok (some t) := by
    rw [try_hwpx_body, hsig, hzip]
    dsimp only
    rw [if_neg (by simp)]
    have hfilt : List.filter
        (fun en : List Char × List Nat =>
          "contents/section".toList.isPrefixOf (asciiLower en.1) &&
          ".xml".toList.isSuffixOf (asciiLower en.1))
        [("Contents/Section0.xml".toList, B)] =
        [("Contents/Section0.xml".toList, B)] := by
      rw [List.filter_cons, if_pos (by dsimp only; decide)]
      rfl
    rw [hfilt]
    rw [if_neg (by simp)]
    dsimp only [List.map_cons, List.map_nil]
    rw [show sortNames ["Contents/Section0.xml".toList] =
      ["Contents/Section0.xml".toList] from rfl]
    dsimp only [List.map_cons, List.map_nil]
    rw [show (Option.map (fun x : List Char × List Nat => x.2)
      (List.find? (fun en : List Char × List Nat =>
        decide (en.1 = "Contents/Section0.xml".toList))
        [("Contents/Section0.xml".toList, B)])).getD [] = B from rfl]
    rw [hdec]
    rw [show joinSep ['\n'] [stripTags X] = stripTags X from rfl, hnorm]
  rw [try_hwpx, hbody]

/-- A trivial codec library: every strict decode fails, every lenient
decode yields the empty string. -/
def decNone : Decoders := ⟨fun _ _ => none, fun _ _ => []⟩

/-- A non-zip file whose raw-stream extractor raises the no-password
condition (an encrypted document, no password supplied, pyhwp absent). -/
def envPw : Env :=
  ⟨decNone, pyIsAlnum, pyCatLN, .ok [], .ok [], false, none,
   .error (.otherError []), .error (.otherError []),
   fun _ => .error (.otherError []), .ok [],
   .error (.noPasswordError "Password required to open encrypted document".toList)⟩

/-- A non-zip file where pyhwp fails and the raw-stream extractor raises a
generic extractor error. -/
def envCex : Env :=
  ⟨decNone, pyIsAlnum, pyCatLN, .ok [], .ok [], true, none,
   .error (.valueError "parse fail".toList), .error (.otherError []),
   fun _ => .error (.otherError []), .ok [],
   .error (.hwpExtractorError "stream corrupt".toList)⟩

/-- A non-zip file, pyhwp absent, whose raw-stream extractor yields no
streams at all: the terminal no-content failure. -/
def envTerm : Env :=
  ⟨decNone, pyIsAlnum, pyCatLN, .ok [], .ok [], false, none,
   .error (.otherError []), .error (.otherError []),
   fun _ => .error (.otherError []), .ok [], .ok []⟩

/-- An environment whose signature read raises an I/O error. -/
def envIo : Env :=
  ⟨decNone, pyIsAlnum, pyCatLN, .error (.otherError "io error".toList), .ok [],
   false, none, .error (.otherError []), .error (.otherError []),
   fun _ => .error (.otherError []), .ok [], .ok []⟩

/-- C1.  The claim says the no-password failure raised by the raw-stream
extractor crosses `extract_text` as the distinct encrypted-document
condition (`HWPExtractorNoPasswordError`).  The code contradicts it: the
`except Exception` handler of `extract_text` re-raises every failure of
`extract_with_hwp_extract` as a generic `RuntimeError`, so the dedicated
`except HWPExtractorNoPasswordError` branch of `main` is unreachable.
At the concrete environment `envPw` the raw-stream extractor raises the
no-password error, yet the error leaving `extract_text` is a
`RuntimeError` and never a `HWPExtractorNoPasswordError`. -/
theorem claim_C1_no_password_is_wrapped_generic :
    extract_with_hwp_extract envPw =
      .error (.noPasswordError "Password required to open encrypted document".toList) ∧
    extract_text envPw =
      .error (.runtimeError "Password required to open encrypted document".toList) ∧
    ∀ m, extract_text envPw ≠ .error (.noPasswordError m) := by
  refine ⟨rfl, rfl, ?_⟩
  intro m h
  rw [show extract_text envPw =
    .error (.runtimeError "Password required to open encrypted document".toList)
    from rfl] at h
  exact PyExc.noConfusion (Except.error.inj h)

/-- C5, counterexample to the claim as stated.  At `envCex` all three
strategies are exhausted with no usable text, yet the single error raised
by `extract_text` carries the raw-stream extractor's own message, not the
fixed "no textual content found" message. -/
theorem claim_C5_counterexample :
    try_hwpx envCex = none ∧
    (extract_with_pyhwp envCex).1 = none ∧
    extract_text envCex =
      .error (.runtimeError "stream corrupt (pyhwp failed: parse fail)".toList) ∧
    noContentMsg.isPrefixOf "stream corrupt (pyhwp failed: parse fail)".toList = false := by
  exact ⟨rfl, rfl, rfl, by decide⟩

/-- C5, amended.  (i) The only error ever leaving `extract_text` is a
`RuntimeError` wrapping the raw-stream strategy's failure, with the
structured-library suffix appended; strategies 1 and 2 never propagate an
error.  (ii) When the raw-stream strategy runs and no fragment survives,
its failure carries exactly the fixed message.  Combined with (i): in that
case `extract_text` raises one `RuntimeError` with the fixed message plus
the suffix.  (iii) The suffix is non-empty exactly when the
structured-library strategy was attempted and had failed. -/
theorem claim_C5_terminal_failure :
    (∀ (env : Env) (e : PyExc), extract_text env = .error e →
      ∃ e2, extract_with_hwp_extract env = .error e2 ∧
        e = .runtimeError (excMsg e2 ++ pySuffix env)) ∧
    (∀ (env : Env) (data : List Nat) (streams : List HStream),
      truthyOpt (try_hwpx env) = false →
      (env.hasPyhwp = true → truthyOpt (extract_with_pyhwp env).1 = false) →
      env.readData = .ok data → env.extractFiles = .ok streams →
      hwpFragments env streams = [] →
      extract_text env = .error (.runtimeError (noContentMsg ++ pySuffix env))) ∧
    (∀ env : Env, pySuffix env ≠ [] ↔
      env.hasPyhwp = true ∧ ((extract_with_pyhwp env).2).isSome) :=
  ⟨extract_text_error_origin, extract_text_terminal, pySuffix_ne_nil_iff⟩

/-- Witness for C5 at `envTerm`: the terminal failure with the fixed
message propagates (with an empty suffix since pyhwp was never
attempted). -/
theorem claim_C5_witness :
    extract_text envTerm = .error (.runtimeError (noContentMsg ++ pySuffix envTerm)) :=
  claim_C5_terminal_failure.2.1 envTerm [] [] rfl (fun h => by cases h) rfl rfl rfl

/-- C7.  The container-text strategy never propagates an exception: any
raised error inside its body yields `None`, so control passes to the next
strategy. -/
theorem claim_C7_try_hwpx_never_raises :
    ∀ (env : Env) (e : PyExc), try_hwpx_body env = .error e → try_hwpx env = none := by
  intro env e h
  rw [try_hwpx, h]

/-- Witness for C7: an I/O failure while reading the signature. -/
theorem claim_C7_witness :
    try_hwpx_body envIo = .error (.otherError "io error".toList) ∧ try_hwpx envIo = none :=
  ⟨rfl, claim_C7_try_hwpx_never_raises envIo (.otherError "io error".toList) rfl⟩

/-- C2.  The normalizer is idempotent: for every string and every choice
of the Unicode classification parameters,
`normalize_text (normalize_text S) = normalize_text S`. -/
theorem claim_C2_normalize_idempotent :
    ∀ (alnum catLN : Char → Bool) (raw : List Char),
      normalize_text alnum catLN (normalize_text alnum catLN raw) =
        normalize_text alnum catLN raw :=
  normalize_text_idem

/-- C3.  `smart_decode` returns a string whose score is at least the
score of every candidate decoding that was attempted and decoded
successfully during the call (narrowed-buffer candidates included), and
returns the empty string on the empty buffer (lenient decoding of the
empty byte string is empty for every codec). -/
theorem claim_C3_smart_decode_best_of :
    (∀ (d : Decoders) (raw : List Nat),
      ∀ t ∈ smart_decode_attempts d raw,
        score_text t ≤ score_text (smart_decode d raw)) ∧
    (∀ d : Decoders, (∀ e, d.replace e [] = []) → smart_decode d [] = []) :=
  ⟨smart_decode_best, smart_decode_empty_of_replace⟩

/-- The attempt log of `smart_decode` on the empty buffer: the three
lenient candidates, each decoding to the empty string. -/
theorem smart_decode_attempts_empty (d : Decoders)
    (h : ∀ e, d.replace e [] = []) : smart_decode_attempts d [] = [[], [], []] := by
  have hlooks : looksUtf16 ([] : List Nat) = false := rfl
  have hc : smart_decode_cands1 d [] = [some [], some [], some []] := by
    rw [smart_decode_cands1, hlooks]
    rw [h .cp949, h .euckr, h .utf8]
    rfl
  have hscore : score_text [] = 0 := by
    rw [score_text, _printable_ratio, _hangul_ratio]
    norm_num
  have hp1 : smart_decode_pass1 d [] = ([], 0, false, [[], [], []]) := by
    rw [smart_decode_pass1, hc]
    rw [candLoop]
    simp only [hscore]
    norm_num
    rw [candLoop]
    simp only [hscore]
    norm_num
    rw [candLoop]
    simp only [hscore]
    norm_num
    rw [candLoop]
    exact ⟨rfl, rfl, rfl, rfl⟩
  rw [smart_decode_attempts, smart_decode_full, hp1]
  norm_num [hlooks]

/-- Witness for C3: the empty buffer under the trivial codec library, and
the empty candidate it attempted. -/
theorem claim_C3_witness :
    smart_decode decNone [] = [] ∧
    [] ∈ smart_decode_attempts decNone [] ∧
    score_text [] ≤ score_text (smart_decode decNone []) := by
  have hmem : [] ∈ smart_decode_attempts decNone [] := by
    rw [smart_decode_attempts_empty decNone (fun e => rfl)]
    simp
  exact ⟨claim_C3_smart_decode_best_of.2 decNone (fun e => rfl), hmem,
    claim_C3_smart_decode_best_of.1 decNone [] [] hmem⟩

/-- C4.  For a buffer flagged wide-byte-likely by the zero-byte pre-check
(as a valid two-byte little-endian Korean buffer is) whose strict
UTF-16-LE decoding succeeds with score above 1.2, `smart_decode` returns
that little-endian decoding (the 8-bit legacy candidates are never
preferred: the loop returns before reaching them). -/
theorem claim_C4_utf16le_preferred :
    ∀ (d : Decoders) (raw : List Nat) (t : List Char),
      looksUtf16 raw = true → d.strict .utf16le raw = some t →
      6 / 5 < score_text t → smart_decode d raw = t :=
  fun _ _ _ h1 h2 h3 => smart_decode_early_utf16le h1 h2 h3

/-- A codec library whose strict UTF-16-LE decode yields a Korean string. -/
def decKr : Decoders :=
  ⟨fun e _ => if e = .utf16le then some "안녕 세계".toList else none, fun _ _ => []⟩

/-- Witness for C4: a two-byte buffer with 50% zero bytes whose
little-endian decoding is Korean text of score 7/5. -/
theorem claim_C4_witness : smart_decode decKr [0x48, 0x00] = "안녕 세계".toList := by
  refine claim_C4_utf16le_preferred decKr [0x48, 0x00] "안녕 세계".toList (by decide) rfl ?_
  have h1 : "안녕 세계".toList.countP
      (fun ch => pyIsPrintable ch || ch = '\n' || ch = '\t') = 5 := by decide
  have h2 : "안녕 세계".toList.length = 5 := by decide
  have h3 : "안녕 세계".toList.countP isHangulSyl = 4 := by decide
  have h4 : "안녕 세계".toList.countP pyIsAlpha = 4 := by decide
  rw [score_text, _printable_ratio, _hangul_ratio,
    if_neg (by decide), if_neg (by decide), h1, h2, h3, h4]
  norm_num

/-- C6.  A file whose first four bytes are the zip signature and which
contains a `Contents/Section0.xml` entry whose markup-stripped content
survives normalization: `extract_text` returns that normalized text with
the "hwpx" label, and the strategy trace shows that neither the
structured-library strategy nor the raw-stream strategy was invoked. -/
theorem claim_C6_hwpx_short_circuits :
    ∀ (env : Env) (B : List Nat) (X t : List Char),
      env.sigRead = .ok zipSignature →
      env.zipEntries = .ok [("Contents/Section0.xml".toList, B)] →
      env.dec.strict .utf8 B = some X →
      normalize_text env.alnum env.catLN (stripTags X) = t →
      t ≠ [] →
      extract_text env = .ok (t, "hwpx".toList) ∧
      extract_text_core env = (.ok (t, "hwpx".toList), ["try_hwpx".toList]) := by
  intro env B X t h1 h2 h3 h4 h5
  have hh := try_hwpx_scenario env B X t h1 h2 h3 h4
  have hcore : extract_text_core env = (.ok (t, "hwpx".toList), ["try_hwpx".toList]) := by
    rw [extract_text_core, hh]
    dsimp only
    rw [if_pos (by simp [truthyOpt, h5])]
    rfl
  exact ⟨by rw [extract_text, hcore], hcore⟩

/-- A codec library whose strict UTF-8 decode yields a fixed markup
fragment. -/
def decXml : Decoders :=
  ⟨fun e _ => if e = .utf8 then some "<p>안녕 foo</p>".toList else none, fun _ _ => []⟩

/-- A zip container holding one `Contents/Section0.xml` entry. -/
def envHwpx : Env :=
  ⟨decXml, pyIsAlnum, pyCatLN, .ok zipSignature,
   .ok [("Contents/Section0.xml".toList, [0x3c])], false, none,
   .error (.otherError []), .error (.otherError []),
   fun _ => .error (.otherError []), .ok [], .error (.otherError [])⟩

/-- Witness for C6 at `envHwpx`. -/
theorem claim_C6_witness :
    extract_text envHwpx = .ok ("안녕 foo".toList, "hwpx".toList) ∧
    extract_text_core envHwpx = (.ok ("안녕 foo".toList, "hwpx".toList),
      ["try_hwpx".toList]) := by
  have hstrip : stripTags "<p>안녕 foo</p>".toList = " 안녕 foo ".toList := by
    rw [← stripTagsRun_eq _ _ (le_refl _)]
    decide
  have hnorm : normalize_text pyIsAlnum pyCatLN " 안녕 foo ".toList = "안녕 foo".toList := by
    rw [← normalize_textRun_eq]
    decide
  exact claim_C6_hwpx_short_circuits envHwpx [0x3c] "<p>안녕 foo</p>".toList
    "안녕 foo".toList rfl rfl rfl (by rw [hstrip]; exact hnorm) (by decide)

/-- C8.  The output of `normalize_text` is the single-newline join of its
sanitized lines; each line is non-empty, stripped, whitespace-collapsed
(no two adjacent whitespace characters) and drawn from the allow list; no
output character is NUL or in the stripped control range; no run of three
newlines occurs; and splitting a non-empty output on newline recovers
exactly the sanitized lines. -/
theorem claim_C8_output_invariants :
    ∀ (alnum catLN : Char → Bool) (raw : List Char),
      normalize_text alnum catLN raw = joinSep ['\n'] (sanitizedLines alnum catLN raw) ∧
      (∀ line ∈ sanitizedLines alnum catLN raw,
        line ≠ [] ∧ stripWS line = line ∧ collapseWS line = line ∧
        hasAdjWS line = false ∧
        ∀ c ∈ line, is_allowed_char catLN c = true) ∧
      (∀ c ∈ normalize_text alnum catLN raw,
        c ≠ '\x00' ∧ isStripCtrl c = false ∧ is_allowed_char catLN c = true) ∧
      (¬ ∃ l1 l2, normalize_text alnum catLN raw = l1 ++ '\n' :: '\n' :: '\n' :: l2) ∧
      (normalize_text alnum catLN raw ≠ [] →
        splitNl (normalize_text alnum catLN raw) = sanitizedLines alnum catLN raw) := by
  intro alnum catLN raw
  have hgs : ∀ s ∈ sanitizedLines alnum catLN raw, GoodSpan alnum s :=
    fun s hs => sanitizedLines_goodSpan hs
  refine ⟨rfl, ?_, ?_, ?_, ?_⟩
  · intro line hline
    obtain ⟨hne, _, hnarrow, hnoAdj, hstrip, _, _⟩ := hgs line hline
    exact ⟨hne, hstrip,
      collapseWS_eq_self hnoAdj (fun c hc hcs => narrowChar_space (hnarrow c hc) hcs),
      hnoAdj, fun c hc => narrowChar_allowed catLN (hnarrow c hc)⟩
  · intro c hc
    rw [normalize_text_eq_joinSep] at hc
    rcases joinSep_goodSpan_mem hgs hc with h1 | h1
    · subst h1
      exact ⟨by decide, by decide, is_allowed_char_nl catLN⟩
    · obtain ⟨_, _, h3, h4⟩ := narrowChar_facts h1
      exact ⟨h3, h4, narrowChar_allowed catLN h1⟩
  · rintro ⟨l1, l2, hdecomp⟩
    rw [normalize_text_eq_joinSep] at hdecomp
    have h1 := hasNlNl_joinSep (L := sanitizedLines alnum catLN raw)
      (fun s hs => ⟨(hgs s hs).1, goodSpan_nl_not_mem (hgs s hs)⟩)
    have h2 := @hasNlNl_of_decomp _ l1 ('\n' :: l2) hdecomp
    rw [h1] at h2
    cases h2
  · intro hne
    rw [normalize_text_eq_joinSep] at hne ⊢
    cases hL : sanitizedLines alnum catLN raw with
    | nil => rw [hL] at hne; exact absurd rfl hne
    | cons s rest =>
      exact splitNl_joinSep (by simp)
        (fun x hx => goodSpan_nl_not_mem (hgs x (by rw [hL]; exact hx)))

/-- Witness for C8: a concrete noisy document and its surviving line. -/
theorem claim_C8_witness :
    "안녕 a?".toList ∈ sanitizedLines pyIsAlnum pyCatLN "  안녕   a?  \n\n\n\n=== ".toList ∧
    ("안녕 a?".toList ≠ [] ∧ stripWS "안녕 a?".toList = "안녕 a?".toList ∧
      collapseWS "안녕 a?".toList = "안녕 a?".toList ∧
      hasAdjWS "안녕 a?".toList = false ∧
      ∀ c ∈ "안녕 a?".toList, is_allowed_char pyCatLN c = true) := by
  have hm : "안녕 a?".toList ∈ sanitizedLines pyIsAlnum pyCatLN
      "  안녕   a?  \n\n\n\n=== ".toList := by
    rw [← sanitizedLinesRun_eq]
    decide
  exact ⟨hm, (claim_C8_output_invariants pyIsAlnum pyCatLN
    "  안녕   a?  \n\n\n\n=== ".toList).2.1 _ hm⟩

/-- C9.  The per-line quality gates: a line with no alphanumeric
character (no Hangul syllable, no ASCII letter or digit — nothing Python's
`isalnum` accepts) never survives; a surviving span never has a Hangul
fraction below 0.2 together with no Latin letter; and the three concrete
examples of the specification behave as stated. -/
theorem claim_C9_quality_gates :
    (∀ (alnum catLN : Char → Bool) (line : List Char),
      (∀ c ∈ line, pyIsAlnum c = false) → processLine alnum catLN line = none) ∧
    (∀ (alnum catLN : Char → Bool) (line s : List Char),
      processLine alnum catLN line = some s →
      ¬ (5 * s.countP isHangulSyl < s.countP alnum ∧ ¬ s.any isLatinLetter = true)) ∧
    normalize_text pyIsAlnum pyCatLN "=== *** ---".toList = [] ∧
    normalize_text pyIsAlnum pyCatLN "1 2 3 %".toList = [] ∧
    normalize_text pyIsAlnum pyCatLN "안녕하세요 오늘은 좋은 날입니다".toList =
      "안녕하세요 오늘은 좋은 날입니다".toList := by
  refine ⟨?_, ?_, ?_, ?_, ?_⟩
  · intro alnum catLN line h
    exact processLine_no_alnum h
  · intro alnum catLN line s h
    exact (processLine_some_goodSpan h).2.2.2.2.2.2
  · rw [← normalize_textRun_eq]
    decide
  · rw [← normalize_textRun_eq]
    decide
  · rw [← normalize_textRun_eq]
    decide

/-- Witness for C9 at the noise-only line of the specification. -/
theorem claim_C9_witness :
    (∀ c ∈ "=== *** ---".toList, pyIsAlnum c = false) ∧
    processLine pyIsAlnum pyCatLN "=== *** ---".toList = none :=
  ⟨by decide, claim_C9_quality_gates.1 pyIsAlnum pyCatLN _ (by decide)⟩

/-- C10.  Every character of the final output of `normalize_text` is a
Hangul syllable, an ASCII digit or letter, the space, the newline, or one
of `. , ! ? … ( ) -` — in particular CJK ideographs, Hangul jamo and
other allow-listed Letter/Number characters never reach the output, for
every choice of the Unicode classification parameters. -/
theorem claim_C10_narrow_output_alphabet :
    ∀ (alnum catLN : Char → Bool) (raw : List Char) (c : Char),
      c ∈ normalize_text alnum catLN raw →
      isHangulSyl c = true ∨ isAsciiDigit c = true ∨ isLatinLetter c = true ∨
      c = ' ' ∨ c = '\n' ∨ spanPunct c = true := by
  intro alnum catLN raw c hc
  rw [normalize_text_eq_joinSep] at hc
  rcases joinSep_goodSpan_mem (fun s hs => sanitizedLines_goodSpan hs) hc with h1 | h1
  · tauto
  · simp only [narrowChar, isSpanStart, Bool.or_eq_true, decide_eq_true_eq] at h1
    tauto

/-- Witness for C10: a CJK-ideograph input; the ideograph is allow-listed
yet absent from the output, whose characters are in the narrow alphabet. -/
theorem claim_C10_witness :
    '안' ∈ normalize_text pyIsAlnum pyCatLN "中文 text 안".toList ∧
    (isHangulSyl '안' = true ∨ isAsciiDigit '안' = true ∨ isLatinLetter '안' = true ∨
      '안' = ' ' ∨ '안' = '\n' ∨ spanPunct '안' = true) ∧
    '中' ∉ normalize_text pyIsAlnum pyCatLN "中文 text 안".toList := by
  have hval : normalize_text pyIsAlnum pyCatLN "中文 text 안".toList =
      "text 안".toList := by
    rw [← normalize_textRun_eq]
    decide
  refine ⟨?_, ?_, ?_⟩
  · rw [hval]
    decide
  · exact claim_C10_narrow_output_alphabet pyIsAlnum pyCatLN "中文 text 안".toList '안'
      (by rw [hval]; decide)
  · rw [hval]
    decide
